import Mathlib

/-!
# policybgp: range-to-CIDR decomposition (`asinfo/cidr.go`)

A shallow embedding of `ipRangeToCIDRs`, `findLargestPrefix` and `getLastAddr`
together with the part of Go's `net/netip` they call, followed by the
properties proved about them.

Machine integers are natural numbers with explicit reduction modulo `2^w`
where the Go code can wrap.  Signed Go `int`s that can be negative (prefix
lengths, comparison results) are `Int`.
-/

set_option autoImplicit false

namespace netip

/-- The family tag of a `netip.Addr` (field `z`): `z0` is the zero (invalid)
address, `z4` an IPv4 address, `z6 zone` an IPv6 address with its zone
(`""` when it has none). -/
inductive Z where
  | z0 : Z
  | z4 : Z
  | z6 (zone : String) : Z
  deriving DecidableEq, Repr

/-- Go's `netip.Addr`: the numeric value and the family tag.  For IPv4 the
value is the 32-bit address, for IPv6 the 128-bit address. -/
structure Addr where
  addr : Nat
  z : Z
  deriving DecidableEq, Repr

/-- Go's `netip.Prefix`: an address and a prefix length; `bits = -1` marks an
invalid prefix (what `Prefix.Bits` reports for it). -/
structure Prefix where
  ip : Addr
  bits : Int
  deriving DecidableEq, Repr

/-- The four bytes of `Addr.As4`, most significant first. -/
structure Bytes4 where
  b0 : Nat
  b1 : Nat
  b2 : Nat
  b3 : Nat
  deriving DecidableEq, Repr

/-- The zero `Addr`, Go's `Addr{}`. -/
def Addr.zero : Addr := ⟨0, Z.z0⟩

/-- Go's `Addr.IsValid`: the address is not the zero address. -/
def Addr.IsValid (ip : Addr) : Bool :=
  match ip.z with
  | Z.z0 => false
  | _ => true

/-- Go's `Addr.Is4`. -/
def Addr.Is4 (ip : Addr) : Bool :=
  match ip.z with
  | Z.z4 => true
  | _ => false

/-- Go's `Addr.Is6`. -/
def Addr.Is6 (ip : Addr) : Bool :=
  match ip.z with
  | Z.z6 _ => true
  | _ => false

/-- Go's `Addr.BitLen`: 0 for the zero address, 32 for IPv4, 128 for IPv6. -/
def Addr.BitLen (ip : Addr) : Nat :=
  match ip.z with
  | Z.z0 => 0
  | Z.z4 => 32
  | Z.z6 _ => 128

/-- Go's `Addr.Zone`: the IPv6 zone, `""` when there is none. -/
def Addr.Zone (ip : Addr) : String :=
  match ip.z with
  | Z.z6 zone => zone
  | _ => ""

/-- Go's `Addr.withoutZone`: an IPv6 address loses its zone, others are unchanged. -/
def Addr.withoutZone (ip : Addr) : Addr :=
  match ip.z with
  | Z.z6 _ => ⟨ip.addr, Z.z6 ""⟩
  | _ => ip

/-- Go's `Addr.Compare`: by bit length first, then by numeric value, then (IPv6
only) by zone, an address without zone sorting just before the same address with
one; the result is -1, 0 or 1. -/
def Addr.Compare (ip ip2 : Addr) : Int :=
  if ip.BitLen < ip2.BitLen then -1
  else if ip.BitLen > ip2.BitLen then 1
  else if ip.addr < ip2.addr then -1
  else if ip.addr > ip2.addr then 1
  else if ip.Is6 then
    if ip.Zone < ip2.Zone then -1
    else if ip.Zone > ip2.Zone then 1
    else 0
  else 0

/-- Go's `Addr.Next`: the address after `ip`, the zero address when `ip` is the
last one of its family. -/
def Addr.Next (ip : Addr) : Addr :=
  match ip.z with
  | Z.z4 => if (ip.addr + 1) % 2 ^ 32 = 0 then Addr.zero else ⟨ip.addr + 1, ip.z⟩
  | _ => if (ip.addr + 1) % 2 ^ 128 = 0 then Addr.zero else ⟨(ip.addr + 1) % 2 ^ 128, ip.z⟩

/-- Big-endian bytes: the `n` low bytes of `v`, most significant first. -/
def toBytesBE : Nat → Nat → List Nat
  | 0, _ => []
  | n + 1, v => toBytesBE n (v / 256) ++ [v % 256]

/-- Big-endian value of a byte list. -/
def ofBytesBE (bs : List Nat) : Nat :=
  bs.foldl (fun acc b => acc * 256 + b) 0

/-- Go's `Addr.As4`: the four bytes of an IPv4 address.  (Go panics on other
addresses; the callers here guard the call with `Is4`.) -/
def Addr.As4 (ip : Addr) : Bytes4 :=
  ⟨ip.addr / 2 ^ 24 % 256, ip.addr / 2 ^ 16 % 256, ip.addr / 2 ^ 8 % 256, ip.addr % 256⟩

/-- Go's `Addr.As16`: the sixteen bytes of the address, IPv4 in its IPv4-mapped
form, the zero address as all zeroes; the zone is dropped. -/
def Addr.As16 (ip : Addr) : List Nat :=
  match ip.z with
  | Z.z4 => toBytesBE 16 (0xffff * 2 ^ 32 + ip.addr % 2 ^ 32)
  | _ => toBytesBE 16 ip.addr

/-- Go's `netip.AddrFrom4`. -/
def AddrFrom4 (b : Bytes4) : Addr :=
  ⟨b.b0 * 2 ^ 24 + b.b1 * 2 ^ 16 + b.b2 * 2 ^ 8 + b.b3, Z.z4⟩

/-- Go's `netip.AddrFrom16`: always an IPv6 address without zone. -/
def AddrFrom16 (bs : List Nat) : Addr :=
  ⟨ofBytesBE bs, Z.z6 ""⟩

/-- Go's `netip.PrefixFrom`: host bits are kept and the zone is dropped (prefixes
strip zones); a length outside `0..BitLen` (or a zero address) gives an invalid
prefix. -/
def PrefixFrom (ip : Addr) (bits : Int) : Prefix :=
  ⟨ip.withoutZone,
    if ip.IsValid = true ∧ 0 ≤ bits ∧ bits ≤ (ip.BitLen : Int) then bits else -1⟩

/-- Go's `Prefix.Addr`. -/
def Prefix.Addr (p : Prefix) : Addr := p.ip

/-- Go's `Prefix.Bits`. -/
def Prefix.Bits (p : Prefix) : Int := p.bits

/-- Go's `Addr.Prefix` without its error value: keeps only the top `b` bits of the
address.  A zero address, a negative or too large `b` give the zero prefix. -/
def Addr.Prefix (ip : Addr) (b : Int) : Prefix :=
  if b < 0 then ⟨Addr.zero, -1⟩
  else
    match ip.z with
    | Z.z0 => ⟨Addr.zero, -1⟩
    | _ =>
      if b > (ip.BitLen : Int) then ⟨Addr.zero, -1⟩
      else
        let h := ip.BitLen - b.toNat
        PrefixFrom ⟨(ip.addr >>> h) <<< h, ip.z⟩ b

/-- Go's `Prefix.Masked`: the prefix in canonical form, host bits cleared; the zero
prefix when `p` is invalid. -/
def Prefix.Masked (p : Prefix) : Prefix :=
  p.ip.Prefix p.Bits

/-- The value of the address fits the bit width of its family (what every
`netip.Addr` satisfies by its representation). -/
def Addr.InRange (ip : Addr) : Prop := ip.addr < 2 ^ ip.BitLen

instance (ip : Addr) : Decidable ip.InRange := by
  unfold Addr.InRange
  infer_instance

/-- The address span of a prefix `a/n` of width `W`: the addresses of its family
with value in `a .. a + 2^(W-n) - 1`. -/
def Prefix.Spans (p : Prefix) (x : netip.Addr) : Prop :=
  x.z = p.ip.z ∧ p.ip.addr ≤ x.addr ∧ x.addr ≤ p.ip.addr + 2 ^ (p.ip.BitLen - p.bits.toNat) - 1

/-- A well-formed prefix `a/n`: a valid, zone-less address, `0 ≤ n ≤ W`, and the low
`W - n` bits of `a` zero. -/
def Prefix.WellFormed (p : Prefix) : Prop :=
  p.ip.IsValid = true ∧ p.ip.InRange ∧ p.ip.Zone = "" ∧ 0 ≤ p.bits ∧
    p.bits ≤ (p.ip.BitLen : Int) ∧ p.ip.addr % 2 ^ (p.ip.BitLen - p.bits.toNat) = 0

instance (p : Prefix) : Decidable p.WellFormed := by
  unfold Prefix.WellFormed
  infer_instance

instance (p : Prefix) (x : netip.Addr) : Decidable (p.Spans x) := by
  unfold Prefix.Spans
  infer_instance

end netip

namespace asinfo

open netip

/-- The byte loop of the 128-bit branch of `getLastAddr`:
`for i := 15; i >= 0 && bitsRemaining > 0; i--`.  The first argument is
`i + 1`, so `0` is the exit `i < 0`; `result` is the 16-byte array. -/
def getLastAddr.loop : Nat → Nat → List Nat → List Nat
  | 0, _, result => result
  | i + 1, bitsRemaining, result =>
    if bitsRemaining > 0 then
      if bitsRemaining ≥ 8 then
        -- result[i] = 0xFF; bitsRemaining -= 8
        getLastAddr.loop i (bitsRemaining - 8) (result.set i 0xFF)
      else
        -- mask := byte((1 << bitsRemaining) - 1), byte arithmetic
        let mask := ((1 <<< bitsRemaining) % 256 + 256 - 1) % 256
        -- result[i] |= mask; bitsRemaining = 0
        getLastAddr.loop i 0 (result.set i (result.getD i 0 ||| mask))
    else result

/-- The function `getLastAddr` returns the last address in a prefix.  A prefix
length is at most the bit length and here differs from it, so `hostBits` is
positive; all `uint32` arithmetic is taken modulo `2^32`. -/
def getLastAddr (pfx : Prefix) : Addr :=
  let addr := pfx.Addr
  let prefixLen := pfx.Bits
  let maxBits := addr.BitLen
  if prefixLen = (maxBits : Int) then addr -- host route
  else if addr.Is4 = true then
    let ip4 := addr.As4
    let hostBits := 32 - prefixLen
    let ipInt := ip4.b0 <<< 24 ||| ip4.b1 <<< 16 ||| ip4.b2 <<< 8 ||| ip4.b3
    -- mask := uint32((1 << hostBits) - 1)
    let mask := ((1 <<< hostBits.toNat) % 2 ^ 32 + 2 ^ 32 - 1) % 2 ^ 32
    -- lastInt := ipInt + mask
    let lastInt := (ipInt + mask) % 2 ^ 32
    AddrFrom4 ⟨lastInt >>> 24 % 256, lastInt >>> 16 % 256, lastInt >>> 8 % 256, lastInt % 256⟩
  else
    let ip16 := addr.As16
    let hostBits := 128 - prefixLen
    AddrFrom16 (getLastAddr.loop 16 hostBits.toNat ip16)

/-- The scan of `findLargestPrefix`:
`for prefixLen := maxBits - 1; prefixLen >= 0; prefixLen--`.  The first
argument is `prefixLen + 1`. -/
def findLargestPrefix.loop (start end_ : Addr) : Nat → Prefix → Addr → Prefix × Addr
  | 0, lastFit, lastFitRangeEnd => (lastFit, lastFitRangeEnd)
  | prefixLen + 1, lastFit, lastFitRangeEnd =>
    let candidate := (PrefixFrom start prefixLen).Masked
    if candidate.Addr.Compare start ≠ 0 then (lastFit, lastFitRangeEnd)
    else
      let lastAddr := getLastAddr candidate
      if lastAddr.Compare end_ > 0 then (lastFit, lastFitRangeEnd)
      else findLargestPrefix.loop start end_ prefixLen candidate lastAddr

/-- The function `findLargestPrefix` finds the largest CIDR prefix that starts at `start`
and does not exceed `end_`; it returns the prefix and its last address. -/
def findLargestPrefix (start end_ : Addr) : Prefix × Addr :=
  let maxBits := start.BitLen
  findLargestPrefix.loop start end_ maxBits (PrefixFrom start maxBits) start

/-- The four errors `ipRangeToCIDRs` reports (its `fmt.Errorf` messages, with
the values they print). -/
inductive RangeError where
  | startNotValid (start : Addr) : RangeError
  | endNotValid (end_ : Addr) : RangeError
  | familyMismatch (start end_ : Addr) : RangeError
  | startGreaterThanEnd (start end_ : Addr) : RangeError
  deriving DecidableEq, Repr

/-- The driving loop of `ipRangeToCIDRs` (`for { ... }`), run for at most
`fuel` iterations; `none` when the loop has not reached its `break` by then. -/
def ipRangeToCIDRs.loop (end_ : Addr) : Nat → Addr → List Prefix → Option (List Prefix)
  | 0, _, _ => none
  | fuel + 1, curr, prefixes =>
    let r := findLargestPrefix curr end_
    let prefixes := prefixes ++ [r.1]
    if r.2.Compare end_ = 0 then some prefixes
    else ipRangeToCIDRs.loop end_ fuel r.2.Next prefixes

/-- The function `ipRangeToCIDRs` converts the inclusive range `start..end_` into a list of
CIDR prefixes.  The result is Go's pair `(prefixes, err)`, a nil slice being
the empty list; `none` when the loop needs more than `fuel` iterations. -/
def ipRangeToCIDRs (fuel : Nat) (start end_ : Addr) :
    Option (List Prefix × Option RangeError) :=
  if start.IsValid = false then some ([], some (RangeError.startNotValid start))
  else if end_.IsValid = false then some ([], some (RangeError.endNotValid end_))
  else if start.Is4 ≠ end_.Is4 then some ([], some (RangeError.familyMismatch start end_))
  else if start.Compare end_ > 0 then
    some ([], some (RangeError.startGreaterThanEnd start end_))
  else
    match ipRangeToCIDRs.loop end_ fuel start [] with
    | none => none
    | some prefixes => some (prefixes, none)

/-- A valid range of the specification's data model: two valid addresses of one
family, each a value of the family's bit width without an IPv6 zone, with
`start ≤ end_` in the order of `Addr.Compare`. -/
def ValidRange (start end_ : Addr) : Prop :=
  start.IsValid = true ∧ end_.IsValid = true ∧ start.InRange ∧ end_.InRange ∧
    start.Zone = "" ∧ end_.Zone = "" ∧ start.Is4 = end_.Is4 ∧ start.Compare end_ ≤ 0

instance (start end_ : Addr) : Decidable (ValidRange start end_) := by
  unfold ValidRange
  infer_instance

/-- The call `ipRangeToCIDRs start end_` returns `r`: the embedding gives `r` for every
number of loop iterations from some bound on. -/
def Returns (start end_ : Addr) (r : List Prefix × Option RangeError) : Prop :=
  ∃ n, ∀ fuel, n ≤ fuel → ipRangeToCIDRs fuel start end_ = some r

/-- The family tags of the specification's addresses: IPv4, or IPv6 without zone. -/
def PlainTag (z : Z) : Prop := z = Z.z4 ∨ z = Z.z6 ""

/-- The number `h` is the largest number of host bits of an aligned block that starts at `a`
and ends at or before `e`, in a family of width `W`. -/
def LargestFit (W a e h : Nat) : Prop :=
  h ≤ W ∧ 2 ^ h ∣ a ∧ a + 2 ^ h ≤ e + 1 ∧
    ∀ j, j ≤ W → 2 ^ j ∣ a → a + 2 ^ j ≤ e + 1 → j ≤ h

/-- The greedy decomposition of `c..e` as a list of blocks `(address, host bits)`:
each block is the largest aligned one that starts where the previous one ended and
does not pass `e`; the last block ends at `e`. -/
inductive Greedy (W e : Nat) : Nat → List (Nat × Nat) → Prop
  | last (c h : Nat) : LargestFit W c e h → c + 2 ^ h = e + 1 → Greedy W e c [(c, h)]
  | step (c h : Nat) (rest : List (Nat × Nat)) : LargestFit W c e h → c + 2 ^ h < e + 1 →
      Greedy W e (c + 2 ^ h) rest → Greedy W e c ((c, h) :: rest)

/-- The prefix of family `z` (width `W`) for a block `(address, host bits)`. -/
def blockPrefix (z : Z) (W : Nat) (b : Nat × Nat) : Prefix :=
  ⟨⟨b.1, z⟩, ((W - b.2 : Nat) : Int)⟩

/-- The positions `curr` the driving loop of `ipRangeToCIDRs start end_` takes:
`start` at the first iteration, and `lastAddr.Next()` after every iteration whose
`lastAddr.Compare(end) == 0` test fails (the loop continues). -/
inductive ipRangeToCIDRs.Position (start end_ : Addr) : Addr → Prop
  | first : ipRangeToCIDRs.Position start end_ start
  | next (curr : Addr) : ipRangeToCIDRs.Position start end_ curr →
      (findLargestPrefix curr end_).2.Compare end_ ≠ 0 →
      ipRangeToCIDRs.Position start end_ (findLargestPrefix curr end_).2.Next

/-- Trailing-zero-bit count of `a` in a family of width `W`: the number of low bits
of `a` that are zero, counted up to `W`, so that the count of `0` is `W`. -/
def trailingZeroBits : Nat → Nat → Nat
  | 0, _ => 0
  | W + 1, a => if a % 2 = 0 then trailingZeroBits W (a / 2) + 1 else 0

/-- Bit length of `x` looking at no more than the given number of bits. -/
def bitLengthAux : Nat → Nat → Nat
  | 0, _ => 0
  | f + 1, x => if x = 0 then 0 else bitLengthAux f (x / 2) + 1

/-- Bit length of `x`: the number of bits needed to write `x` (`0` for `0`, `1` for
`1`, `9` for `256`). -/
def bitLength (x : Nat) : Nat := bitLengthAux x x

/-- Floor of the base-2 logarithm of `x ≥ 1`: one less than its bit length. -/
def floorLog2 (x : Nat) : Nat := bitLength x - 1

end asinfo

namespace serve

open netip

/-- Go's `strings.SplitN(s, sep, n)` for a one-character separator and `n ≥ 0`, on
the characters of `s`: at most `n` fields, the last one the unsplit remainder;
no field at all for `n = 0`. -/
def SplitNChars (sep : Char) : Nat → List Char → List (List Char)
  | 0, _ => []
  | 1, s => [s]
  | n + 2, s =>
    match s.span (fun c => c != sep) with
    | (field, []) => [field]
    | (field, _ :: rest) => field :: SplitNChars sep (n + 1) rest

/-- Go's `strings.SplitN` on strings, for a one-character separator. -/
def SplitN (s : String) (sep : Char) (n : Nat) : List String :=
  (SplitNChars sep n s.toList).map String.mk

/-- Go's `strconv.Atoi` on a 64-bit platform: an optional sign followed by one or
more decimal digits, within the range of `int`; `none` stands for its error. -/
def Atoi (s : String) : Option Int :=
  let signed : Bool × List Char :=
    match s.toList with
    | '-' :: t => (true, t)
    | '+' :: t => (false, t)
    | t => (false, t)
  if signed.2 = [] ∨ signed.2.all Char.isDigit = false then none
  else
    let v : Int := signed.2.foldl (fun acc c => acc * 10 + ((c.toNat - 48 : Nat) : Int)) 0
    let r : Int := if signed.1 then -v else v
    if r < -(2 ^ 63) ∨ r > 2 ^ 63 - 1 then none else some r

/-- The `Policy` struct of the serve command (without its `ASInfo` pointer, which the
parser leaves nil). -/
structure Policy where
  ASN : Nat
  IP4NextHop : Addr
  IP6NextHop : Addr
  deriving DecidableEq, Repr

/-- The errors with which the policy parser of `Command.Action` exits. -/
inductive PolicyError where
  | invalidPolicyFormat (policyStr : String) : PolicyError
  | invalidASN (policyStr : String) : PolicyError
  | asnOutOfRange (asn : Int) (policyStr : String) : PolicyError
  | invalidIPv4NextHop (part : String) (policyStr : String) : PolicyError
  | invalidIPv6NextHop (part : String) (policyStr : String) : PolicyError
  deriving DecidableEq, Repr

/-- One iteration of the policy loop of `Command.Action` (serve.go, lines 95 to 128):
the `Policy` appended for `policyStr`, or the error the action exits with.
`ParseAddr` stands for `netip.ParseAddr`, `none` being its error. -/
def parsePolicy (ParseAddr : String → Option Addr) (policyStr : String) :
    Except PolicyError Policy :=
  let parts := SplitN policyStr ',' 3
  if parts.length < 2 ∨ parts.length > 3 then
    Except.error (PolicyError.invalidPolicyFormat policyStr)
  else
    match Atoi (parts.getD 0 "") with
    | none => Except.error (PolicyError.invalidASN policyStr)
    | some asn =>
      if asn = 0 ∨ asn > 4294967295 then
        Except.error (PolicyError.asnOutOfRange asn policyStr)
      else
        match ParseAddr (parts.getD 1 "") with
        | none => Except.error (PolicyError.invalidIPv4NextHop (parts.getD 1 "") policyStr)
        | some ip4NextHop =>
          if ip4NextHop.Is4 = false then
            Except.error (PolicyError.invalidIPv4NextHop (parts.getD 1 "") policyStr)
          else if parts.length = 3 ∧ parts.getD 2 "" ≠ "" then
            match ParseAddr (parts.getD 2 "") with
            | none =>
              Except.error (PolicyError.invalidIPv6NextHop (parts.getD 2 "") policyStr)
            | some ip6NextHop =>
              if ip6NextHop.Is6 = false then
                Except.error (PolicyError.invalidIPv6NextHop (parts.getD 2 "") policyStr)
              else
                -- ASN: uint32(asn)
                Except.ok ⟨(asn % 2 ^ 32).toNat, ip4NextHop, ip6NextHop⟩
          else
            -- ip6NextHop stays the zero netip.Addr
            Except.ok ⟨(asn % 2 ^ 32).toNat, ip4NextHop, Addr.zero⟩

/-- The policy loop of `Command.Action`: the policies parsed from the `--policy`
values in order, or the error of the first value that fails. -/
def parsePolicies (ParseAddr : String → Option Addr) :
    List String → Except PolicyError (List Policy)
  | [] => Except.ok []
  | policyStr :: more =>
    match parsePolicy ParseAddr policyStr with
    | Except.error e => Except.error e
    | Except.ok p =>
      match parsePolicies ParseAddr more with
      | Except.error e => Except.error e
      | Except.ok ps => Except.ok (p :: ps)

end serve

namespace netip

theorem ofBytesBE_append_singleton (l : List Nat) (b : Nat) :
    ofBytesBE (l ++ [b]) = ofBytesBE l * 256 + b := by
  simp [ofBytesBE, List.foldl_append]

theorem ofBytesBE_foldl (l : List Nat) (x : Nat) :
    l.foldl (fun acc b => acc * 256 + b) x = x * 256 ^ l.length + ofBytesBE l := by
  induction l generalizing x with
  | nil => simp [ofBytesBE]
  | cons b t ih =>
    simp only [List.foldl_cons, List.length_cons, ofBytesBE]
    rw [ih (x * 256 + b), ih (0 * 256 + b)]
    ring

theorem ofBytesBE_append (l s : List Nat) :
    ofBytesBE (l ++ s) = ofBytesBE l * 256 ^ s.length + ofBytesBE s := by
  unfold ofBytesBE
  rw [List.foldl_append, ofBytesBE_foldl]
  rfl

theorem length_toBytesBE (n v : Nat) : (toBytesBE n v).length = n := by
  induction n generalizing v with
  | zero => simp [toBytesBE]
  | succ n ih => simp [toBytesBE, ih]

theorem toBytesBE_lt (n v : Nat) : ∀ b ∈ toBytesBE n v, b < 256 := by
  induction n generalizing v with
  | zero => simp [toBytesBE]
  | succ n ih =>
    intro b hb
    simp only [toBytesBE, List.mem_append, List.mem_singleton] at hb
    rcases hb with hb | hb
    · exact ih _ b hb
    · omega

theorem ofBytesBE_toBytesBE (n v : Nat) : ofBytesBE (toBytesBE n v) = v % 256 ^ n := by
  induction n generalizing v with
  | zero => simp [toBytesBE, ofBytesBE, Nat.mod_one]
  | succ n ih =>
    simp only [toBytesBE, ofBytesBE_append_singleton, ih]
    rw [pow_succ, Nat.mul_comm (256 ^ n) 256, Nat.mod_mul]
    omega


theorem or_split256 (x b m c : Nat) (hb : b < 256) (hc : c < 256) :
    (x * 256 + b) ||| (m * 256 + c) = (x ||| m) * 256 + (b ||| c) := by
  have hb8 : b < 2 ^ 8 := by omega
  have hc8 : c < 2 ^ 8 := by omega
  have hbc : (b ||| c) < 2 ^ 8 := Nat.or_lt_two_pow hb8 hc8
  have e1 : x * 256 + b = 2 ^ 8 * x + b := by omega
  have e2 : m * 256 + c = 2 ^ 8 * m + c := by omega
  have e3 : (x ||| m) * 256 + (b ||| c) = 2 ^ 8 * (x ||| m) + (b ||| c) := by omega
  rw [e1, e2, e3]
  apply Nat.eq_of_testBit_eq
  intro j
  rw [Nat.testBit_or, Nat.testBit_mul_pow_two_add x hb8, Nat.testBit_mul_pow_two_add m hc8,
    Nat.testBit_mul_pow_two_add (x ||| m) hbc]
  by_cases hj : j < 8 <;> simp [hj]

theorem two_pow_sub_one_split (r : Nat) (hr : 8 ≤ r) :
    2 ^ r - 1 = (2 ^ (r - 8) - 1) * 256 + 255 := by
  have h : 2 ^ r = 2 ^ (r - 8) * 256 := by
    rw [show (256 : Nat) = 2 ^ 8 by norm_num, ← pow_add]
    congr 1
    omega
  have hp : 0 < 2 ^ (r - 8) := Nat.two_pow_pos (r - 8)
  rw [h, Nat.sub_mul]
  omega

end netip

namespace asinfo

open netip

theorem set_length_append (init suf : List Nat) (b c : Nat) :
    (init ++ b :: suf).set init.length c = init ++ c :: suf := by
  induction init with
  | nil => rfl
  | cons a t ih => simp [List.set, ih]

theorem getD_length_append (init suf : List Nat) (b d : Nat) :
    (init ++ b :: suf).getD init.length d = b := by
  induction init with
  | nil => rfl
  | cons a t ih => simpa [List.getD] using ih

theorem getLastAddr_loop_zero (k : Nat) (res : List Nat) : getLastAddr.loop k 0 res = res := by
  cases k <;> simp [getLastAddr.loop]

theorem byte_or_255 (b : Nat) (hb : b < 256) : b ||| 255 = 255 := by
  interval_cases b <;> rfl

theorem byte_mask (r : Nat) (hr : r < 8) : ((1 <<< r) % 256 + 256 - 1) % 256 = 2 ^ r - 1 := by
  interval_cases r <;> rfl

theorem getLastAddr_loop_value (pre : List Nat) :
    ∀ (suf : List Nat) (r : Nat), (∀ b ∈ pre, b < 256) → r ≤ 8 * pre.length →
      ofBytesBE (getLastAddr.loop pre.length r (pre ++ suf))
        = (ofBytesBE pre ||| (2 ^ r - 1)) * 256 ^ suf.length + ofBytesBE suf := by
  induction pre using List.reverseRecOn with
  | nil =>
    intro suf r _ hr
    have : r = 0 := by simpa using hr
    subst this
    simp [getLastAddr.loop, ofBytesBE]
  | append_singleton init b ih =>
    intro suf r hpre hr
    have hb : b < 256 := hpre b (by simp)
    have hinit : ∀ x ∈ init, x < 256 := fun x hx => hpre x (by simp [hx])
    have hlen : (init ++ [b]).length = init.length + 1 := by simp
    have happ : init ++ [b] ++ suf = init ++ b :: suf := by simp
    rw [hlen, happ, ofBytesBE_append_singleton]
    rw [hlen] at hr
    by_cases h0 : r = 0
    · subst h0
      rw [getLastAddr_loop_zero, ← happ, ofBytesBE_append, ofBytesBE_append_singleton]
      simp
    · by_cases h8 : 8 ≤ r
      · have hstep : getLastAddr.loop (init.length + 1) r (init ++ b :: suf)
            = getLastAddr.loop init.length (r - 8) (init ++ 255 :: suf) := by
          simp only [getLastAddr.loop]
          rw [if_pos (by omega), if_pos (by omega), set_length_append]
        rw [hstep, ih (255 :: suf) (r - 8) hinit (by omega)]
        rw [two_pow_sub_one_split r h8, or_split256 _ _ _ _ hb (by norm_num), byte_or_255 b hb]
        have : ofBytesBE (255 :: suf) = 255 * 256 ^ suf.length + ofBytesBE suf := by
          have := ofBytesBE_append [255] suf
          simpa [ofBytesBE] using this
        rw [this, List.length_cons, pow_succ]
        ring
      · have hr8 : r < 8 := by omega
        have hstep : getLastAddr.loop (init.length + 1) r (init ++ b :: suf)
            = init ++ (b ||| (2 ^ r - 1)) :: suf := by
          simp only [getLastAddr.loop]
          rw [if_pos (by omega), if_neg (by omega), getLastAddr_loop_zero, set_length_append,
            getD_length_append, byte_mask r hr8]
        have hc : 2 ^ r - 1 < 256 := by
          have : 2 ^ r ≤ 2 ^ 8 := Nat.pow_le_pow_right (by norm_num) (by omega)
          have : 0 < 2 ^ r := Nat.two_pow_pos r
          omega
        have hsplit := or_split256 (ofBytesBE init) b 0 (2 ^ r - 1) hb hc
        simp only [Nat.zero_mul, Nat.zero_add, Nat.or_zero] at hsplit
        rw [hstep, hsplit]
        have : init ++ (b ||| (2 ^ r - 1)) :: suf = (init ++ [b ||| (2 ^ r - 1)]) ++ suf := by simp
        rw [this, ofBytesBE_append, ofBytesBE_append_singleton]


theorem or_eq_add_of_dvd (x y k : Nat) (hy : y < 2 ^ k) (hx : 2 ^ k ∣ x) : x ||| y = x + y := by
  obtain ⟨q, rfl⟩ := hx
  exact (Nat.mul_add_lt_is_or hy q).symm

theorem aligned_add_le (a h W : Nat) (hW : h ≤ W) (ha : a < 2 ^ W) (hd : 2 ^ h ∣ a) :
    a + 2 ^ h ≤ 2 ^ W := by
  obtain ⟨q, rfl⟩ := hd
  have hpow : 2 ^ W = 2 ^ h * 2 ^ (W - h) := by
    rw [← pow_add]; congr 1; omega
  rw [hpow] at ha ⊢
  have hq : q < 2 ^ (W - h) := Nat.lt_of_mul_lt_mul_left ha
  calc 2 ^ h * q + 2 ^ h = 2 ^ h * (q + 1) := by ring
    _ ≤ 2 ^ h * 2 ^ (W - h) := Nat.mul_le_mul_left _ hq

theorem ipInt_eq (a : Nat) (ha : a < 2 ^ 32) :
    (a / 2 ^ 24 % 256) <<< 24 ||| (a / 2 ^ 16 % 256) <<< 16 ||| (a / 2 ^ 8 % 256) <<< 8
      ||| (a % 256) = a := by
  simp only [Nat.shiftLeft_eq]
  have h1 : (a / 2 ^ 24 % 256) * 2 ^ 24 ||| (a / 2 ^ 16 % 256) * 2 ^ 16
      = (a / 2 ^ 24 % 256) * 2 ^ 24 + (a / 2 ^ 16 % 256) * 2 ^ 16 :=
    or_eq_add_of_dvd _ _ 24 (by norm_num; omega) (Dvd.intro_left _ rfl)
  have h2 : ((a / 2 ^ 24 % 256) * 2 ^ 24 + (a / 2 ^ 16 % 256) * 2 ^ 16) ||| (a / 2 ^ 8 % 256) * 2 ^ 8
      = (a / 2 ^ 24 % 256) * 2 ^ 24 + (a / 2 ^ 16 % 256) * 2 ^ 16 + (a / 2 ^ 8 % 256) * 2 ^ 8 :=
    or_eq_add_of_dvd _ _ 16 (by norm_num; omega) (by norm_num; omega)
  have h3 : ((a / 2 ^ 24 % 256) * 2 ^ 24 + (a / 2 ^ 16 % 256) * 2 ^ 16 + (a / 2 ^ 8 % 256) * 2 ^ 8)
        ||| (a % 256)
      = (a / 2 ^ 24 % 256) * 2 ^ 24 + (a / 2 ^ 16 % 256) * 2 ^ 16 + (a / 2 ^ 8 % 256) * 2 ^ 8
        + a % 256 :=
    or_eq_add_of_dvd _ _ 8 (by norm_num; omega) (by norm_num; omega)
  rw [h1, h2, h3]
  norm_num at ha ⊢
  omega

theorem addrFrom4_bytes (l : Nat) (hl : l < 2 ^ 32) :
    AddrFrom4 ⟨l >>> 24 % 256, l >>> 16 % 256, l >>> 8 % 256, l % 256⟩ = ⟨l, Z.z4⟩ := by
  simp only [AddrFrom4, Nat.shiftRight_eq_div_pow]
  congr 1
  norm_num at hl ⊢
  omega

theorem mask32_eq (h : Nat) (hh : h ≤ 32) :
    ((1 <<< h) % 2 ^ 32 + 2 ^ 32 - 1) % 2 ^ 32 = 2 ^ h - 1 := by
  interval_cases h <;> rfl

theorem getLastAddr_ip4 (a n : Nat) (ha : a < 2 ^ 32) (hn : n ≤ 32) :
    getLastAddr ⟨⟨a, Z.z4⟩, (n : Int)⟩ = ⟨(a + (2 ^ (32 - n) - 1)) % 2 ^ 32, Z.z4⟩ := by
  unfold getLastAddr
  simp only [Prefix.Addr, Prefix.Bits, Addr.BitLen, Addr.Is4, Addr.As4]
  by_cases h32 : n = 32
  · subst h32
    simp
    omega
  · have hne : ¬ ((n : Int) = ((32 : Nat) : Int)) := by omega
    have hh : (32 - (n : Int)).toNat = 32 - n := by omega
    simp only [if_neg hne, if_true, hh, ipInt_eq a ha, mask32_eq _ (Nat.sub_le 32 n)]
    exact addrFrom4_bytes _ (Nat.mod_lt _ (by norm_num))

theorem getLastAddr_ip6 (a n : Nat) (ha : a < 2 ^ 128) (hn : n ≤ 128) :
    getLastAddr ⟨⟨a, Z.z6 ""⟩, (n : Int)⟩ = ⟨a ||| (2 ^ (128 - n) - 1), Z.z6 ""⟩ := by
  unfold getLastAddr
  simp only [Prefix.Addr, Prefix.Bits, Addr.BitLen, Addr.Is4, Addr.As16]
  by_cases h128 : n = 128
  · subst h128
    simp
  · have hne : ¬ ((n : Int) = ((128 : Nat) : Int)) := by omega
    have hh : (128 - (n : Int)).toNat = 128 - n := by omega
    have hval := getLastAddr_loop_value (toBytesBE 16 a) [] (128 - n) (toBytesBE_lt 16 a)
      (by rw [length_toBytesBE]; omega)
    rw [length_toBytesBE, List.append_nil, ofBytesBE_toBytesBE] at hval
    have h256 : (256 : Nat) ^ 16 = 2 ^ 128 := by norm_num
    rw [h256, Nat.mod_eq_of_lt ha] at hval
    simp only [if_neg hne, hh, AddrFrom16]
    have hnil : ofBytesBE [] = 0 := rfl
    rw [hnil] at hval
    simp at hval
    simp [hval]

/-- For a network address whose host bits are zero, both branches of `getLastAddr`
give `a + 2^h - 1`. -/
theorem or_mask_aligned (a h : Nat) (hd : 2 ^ h ∣ a) : a ||| (2 ^ h - 1) = a + 2 ^ h - 1 := by
  have hp : 0 < 2 ^ h := Nat.two_pow_pos h
  rw [or_eq_add_of_dvd a (2 ^ h - 1) h (by omega) hd]
  omega


theorem compare_plain (z : Z) (hz : PlainTag z) (x y : Nat) :
    Addr.Compare ⟨x, z⟩ ⟨y, z⟩ = if x < y then -1 else if x > y then 1 else 0 := by
  rcases hz with rfl | rfl <;> simp [Addr.Compare, Addr.BitLen, Addr.Is6, Addr.Zone]

theorem masked_plain (z : Z) (hz : PlainTag z) (a k W : Nat)
    (hW : (Addr.mk a z).BitLen = W) (hk : k ≤ W) :
    (PrefixFrom ⟨a, z⟩ (k : Int)).Masked = ⟨⟨a / 2 ^ (W - k) * 2 ^ (W - k), z⟩, (k : Int)⟩ := by
  rcases hz with rfl | rfl
  all_goals
    simp only [Addr.BitLen] at hW
    subst hW
    have h1 : (0 : Int) ≤ (k : Int) := by omega
    have h2 : ¬ ((k : Int) < 0) := by omega
    simp [Prefix.Masked, PrefixFrom, Addr.Prefix, Addr.withoutZone, Addr.IsValid, Addr.BitLen,
      Prefix.Bits, hk, h2, Nat.shiftLeft_eq, Nat.shiftRight_eq_div_pow]

theorem prefixFrom_plain (z : Z) (hz : PlainTag z) (a k W : Nat)
    (hW : (Addr.mk a z).BitLen = W) (hk : k ≤ W) :
    PrefixFrom ⟨a, z⟩ (k : Int) = ⟨⟨a, z⟩, (k : Int)⟩ := by
  rcases hz with rfl | rfl
  all_goals
    simp only [Addr.BitLen] at hW
    subst hW
    simp [PrefixFrom, Addr.withoutZone, Addr.IsValid, Addr.BitLen, hk]

theorem getLastAddr_plain (z : Z) (hz : PlainTag z) (a n W : Nat)
    (hW : (Addr.mk a z).BitLen = W) (ha : a < 2 ^ W) (hn : n ≤ W) (hd : 2 ^ (W - n) ∣ a) :
    getLastAddr ⟨⟨a, z⟩, (n : Int)⟩ = ⟨a + 2 ^ (W - n) - 1, z⟩ := by
  have hle := aligned_add_le a (W - n) W (Nat.sub_le W n) ha hd
  have hp : 0 < 2 ^ (W - n) := Nat.two_pow_pos _
  rcases hz with rfl | rfl
  · simp only [Addr.BitLen] at hW
    subst hW
    rw [getLastAddr_ip4 a n ha hn, Nat.mod_eq_of_lt (by omega)]
    congr 1
    omega
  · simp only [Addr.BitLen] at hW
    subst hW
    rw [getLastAddr_ip6 a n ha hn, or_mask_aligned a _ hd]

theorem mask_eq_iff_dvd (a h : Nat) : a / 2 ^ h * 2 ^ h = a ↔ 2 ^ h ∣ a := by
  constructor
  · intro he
    exact Dvd.intro_left _ he
  · intro hd
    exact Nat.div_mul_cancel hd

theorem mask_le (a h : Nat) : a / 2 ^ h * 2 ^ h ≤ a := Nat.div_mul_le_self a (2 ^ h)


theorem findLargestPrefix_loop_succ (z : Z) (hz : PlainTag z) (a e W : Nat)
    (hW : (Addr.mk a z).BitLen = W) (ha : a < 2 ^ W) (k : Nat) (hk : k + 1 ≤ W)
    (lastFit : Prefix) (lastFitRangeEnd : Addr) :
    findLargestPrefix.loop ⟨a, z⟩ ⟨e, z⟩ (k + 1) lastFit lastFitRangeEnd
      = if 2 ^ (W - k) ∣ a ∧ a + 2 ^ (W - k) ≤ e + 1 then
          findLargestPrefix.loop ⟨a, z⟩ ⟨e, z⟩ k ⟨⟨a, z⟩, (k : Int)⟩ ⟨a + 2 ^ (W - k) - 1, z⟩
        else (lastFit, lastFitRangeEnd) := by
  have hp : 0 < 2 ^ (W - k) := Nat.two_pow_pos _
  simp only [findLargestPrefix.loop]
  rw [masked_plain z hz a k W hW (by omega)]
  simp only [Prefix.Addr, compare_plain z hz]
  by_cases hdiv : 2 ^ (W - k) ∣ a
  · have hm : a / 2 ^ (W - k) * 2 ^ (W - k) = a := (mask_eq_iff_dvd a _).2 hdiv
    rw [hm, getLastAddr_plain z hz a k W hW ha (by omega) hdiv]
    simp only [compare_plain z hz]
    by_cases hfit : a + 2 ^ (W - k) ≤ e + 1
    · have hc : ¬ (a + 2 ^ (W - k) - 1 > e) := by omega
      simp [hdiv, hfit, hc]
      intro hlt
      omega
    · have hc : a + 2 ^ (W - k) - 1 > e := by omega
      have hc2 : ¬ (a + 2 ^ (W - k) - 1 < e) := by omega
      simp [hdiv, hfit, hc, hc2]
  · have hne : a / 2 ^ (W - k) * 2 ^ (W - k) ≠ a := fun h => hdiv ((mask_eq_iff_dvd a _).1 h)
    have hlt : a / 2 ^ (W - k) * 2 ^ (W - k) < a := lt_of_le_of_ne (mask_le a _) hne
    simp [hdiv, hlt]

theorem findLargestPrefix_loop_spec (z : Z) (hz : PlainTag z) (a e W : Nat)
    (hW : (Addr.mk a z).BitLen = W) (ha : a < 2 ^ W) (k : Nat) :
    k ≤ W → 2 ^ (W - k) ∣ a → a + 2 ^ (W - k) ≤ e + 1 →
    ∃ h, h ≤ W ∧ 2 ^ h ∣ a ∧ a + 2 ^ h ≤ e + 1 ∧
      (h < W → ¬ (2 ^ (h + 1) ∣ a ∧ a + 2 ^ (h + 1) ≤ e + 1)) ∧
      findLargestPrefix.loop ⟨a, z⟩ ⟨e, z⟩ k ⟨⟨a, z⟩, (k : Int)⟩ ⟨a + 2 ^ (W - k) - 1, z⟩
        = (⟨⟨a, z⟩, ((W - h : Nat) : Int)⟩, ⟨a + 2 ^ h - 1, z⟩) := by
  induction k with
  | zero =>
    intro _ hd hfit
    refine ⟨W, le_refl _, hd, hfit, fun h => absurd h (lt_irrefl _), ?_⟩
    simp [findLargestPrefix.loop]
  | succ k ih =>
    intro hk hd hfit
    have hsub : W - k = (W - (k + 1)) + 1 := by omega
    rw [findLargestPrefix_loop_succ z hz a e W hW ha k hk]
    by_cases hc : 2 ^ (W - k) ∣ a ∧ a + 2 ^ (W - k) ≤ e + 1
    · rw [if_pos hc]
      exact ih (by omega) hc.1 hc.2
    · rw [if_neg hc]
      refine ⟨W - (k + 1), Nat.sub_le _ _, hd, hfit, ?_, ?_⟩
      · intro _ hcon
        rw [← hsub] at hcon
        exact hc hcon
      · have : W - (W - (k + 1)) = k + 1 := by omega
        rw [this]

theorem findLargestPrefix_spec (z : Z) (hz : PlainTag z) (a e W : Nat)
    (hW : (Addr.mk a z).BitLen = W) (ha : a < 2 ^ W) (hae : a ≤ e) :
    ∃ h, LargestFit W a e h ∧
      findLargestPrefix ⟨a, z⟩ ⟨e, z⟩
        = (⟨⟨a, z⟩, ((W - h : Nat) : Int)⟩, ⟨a + 2 ^ h - 1, z⟩) := by
  have h0 : W - W = 0 := Nat.sub_self W
  obtain ⟨h, h1, h2, h3, h4, h5⟩ := findLargestPrefix_loop_spec z hz a e W hW ha W (le_refl _)
    (by rw [h0]; simp) (by rw [h0]; simpa using hae)
  refine ⟨h, ⟨h1, h2, h3, ?_⟩, ?_⟩
  · intro j hj hjd hjf
    by_contra hcon
    have hlt : h < W := by omega
    apply h4 hlt
    have hle : h + 1 ≤ j := by omega
    constructor
    · exact Dvd.dvd.trans (pow_dvd_pow 2 hle) hjd
    · have : 2 ^ (h + 1) ≤ 2 ^ j := Nat.pow_le_pow_right (by norm_num) hle
      omega
  · unfold findLargestPrefix
    simp only [hW]
    rw [prefixFrom_plain z hz a W W hW (le_refl _)]
    have hst : (⟨a, z⟩ : Addr) = ⟨a + 2 ^ (W - W) - 1, z⟩ := by rw [h0]; simp
    rw [← h5]
    congr 1


theorem next_plain (z : Z) (hz : PlainTag z) (x W : Nat)
    (hW : (Addr.mk x z).BitLen = W) (hx : x + 1 < 2 ^ W) :
    Addr.Next ⟨x, z⟩ = ⟨x + 1, z⟩ := by
  rcases hz with rfl | rfl
  all_goals
    simp only [Addr.BitLen] at hW
    subst hW
    have h1 := Nat.mod_eq_of_lt hx
    simp only [Addr.Next, h1, if_neg (Nat.succ_ne_zero x)]

theorem bitLen_tag (z : Z) (x y : Nat) : (Addr.mk x z).BitLen = (Addr.mk y z).BitLen := rfl

theorem ipRangeToCIDRs_loop_spec (z : Z) (hz : PlainTag z) (e W : Nat)
    (hW : (Addr.mk e z).BitLen = W) (he : e < 2 ^ W) :
    ∀ n s, e - s = n → s ≤ e →
      ∃ L, Greedy W e s L ∧ ∀ fuel acc, e - s < fuel →
        ipRangeToCIDRs.loop ⟨e, z⟩ fuel ⟨s, z⟩ acc = some (acc ++ L.map (blockPrefix z W)) := by
  intro n
  induction n using Nat.strong_induction_on with
  | _ n ih =>
    intro s hn hse
    have hWs : (Addr.mk s z).BitLen = W := hW
    obtain ⟨h, hfit, hres⟩ := findLargestPrefix_spec z hz s e W hWs (by omega) hse
    have hp : 0 < 2 ^ h := Nat.two_pow_pos h
    obtain ⟨_, _, hle, _⟩ := id hfit
    by_cases hend : s + 2 ^ h = e + 1
    · refine ⟨[(s, h)], Greedy.last s h hfit hend, ?_⟩
      intro fuel acc hfuel
      obtain ⟨f, rfl⟩ : ∃ f, fuel = f + 1 := ⟨fuel - 1, by omega⟩
      have hc : s + 2 ^ h - 1 = e := by omega
      simp [ipRangeToCIDRs.loop, hres, compare_plain z hz, hc, blockPrefix]
    · have hlt : s + 2 ^ h < e + 1 := by omega
      obtain ⟨L, hL, hrun⟩ := ih (e - (s + 2 ^ h)) (by omega) (s + 2 ^ h) rfl (by omega)
      refine ⟨(s, h) :: L, Greedy.step s h L hfit hlt hL, ?_⟩
      intro fuel acc hfuel
      obtain ⟨f, rfl⟩ : ∃ f, fuel = f + 1 := ⟨fuel - 1, by omega⟩
      have hc : s + 2 ^ h - 1 < e := by omega
      have hnext : Addr.Next ⟨s + 2 ^ h - 1, z⟩ = ⟨s + 2 ^ h, z⟩ := by
        have hW2 : (Addr.mk (s + 2 ^ h - 1) z).BitLen = W := hW
        rw [next_plain z hz _ W hW2 (by omega)]
        congr 1
        omega
      simp only [ipRangeToCIDRs.loop, hres, compare_plain z hz, hc, hnext]
      rw [hrun f _ (by omega)]
      simp [blockPrefix]


theorem multiple_step (k x y : Nat) (hx : 2 ^ k ∣ x) (hy : 2 ^ k ∣ y) (hlt : x < y) :
    x + 2 ^ k ≤ y := by
  obtain ⟨p, rfl⟩ := hx
  obtain ⟨q, rfl⟩ := hy
  have hpq : p < q := Nat.lt_of_mul_lt_mul_left hlt
  calc 2 ^ k * p + 2 ^ k = 2 ^ k * (p + 1) := by ring
    _ ≤ 2 ^ k * q := Nat.mul_le_mul_left _ hpq

/-- A well-formed block inside `c..e` that reaches past the greedy block at `c` starts
after it: aligned blocks are nested or disjoint. -/
theorem block_after (W c e h a k : Nat) (hfit : LargestFit W c e h) (hk : k ≤ W)
    (hd : 2 ^ k ∣ a) (hca : c ≤ a) (hae : a + 2 ^ k ≤ e + 1) (hpast : c + 2 ^ h < a + 2 ^ k) :
    c + 2 ^ h ≤ a := by
  obtain ⟨_, hcd, _, hmax⟩ := hfit
  by_contra hcon
  have hlt : a < c + 2 ^ h := by omega
  by_cases hkh : k ≤ h
  · have h1 : 2 ^ k ∣ c + 2 ^ h :=
      Dvd.dvd.add (Dvd.dvd.trans (pow_dvd_pow 2 hkh) hcd) (pow_dvd_pow 2 hkh)
    have := multiple_step k a (c + 2 ^ h) hd h1 hlt
    omega
  · have hhk : h ≤ k := by omega
    by_cases hac : a = c
    · subst hac
      have := hmax k hk hd hae
      omega
    · have h1 : 2 ^ h ∣ a := Dvd.dvd.trans (pow_dvd_pow 2 hhk) hd
      have := multiple_step h c a hcd h1 (by omega)
      omega

theorem greedy_blocks {W e c : Nat} {L : List (Nat × Nat)} (hg : Greedy W e c L) :
    ∀ b ∈ L, b.2 ≤ W ∧ 2 ^ b.2 ∣ b.1 ∧ c ≤ b.1 ∧ b.1 + 2 ^ b.2 ≤ e + 1 := by
  induction hg with
  | last c h hfit hend =>
    intro b hb
    simp only [List.mem_singleton] at hb
    subst hb
    exact ⟨hfit.1, hfit.2.1, le_refl _, hfit.2.2.1⟩
  | step c h rest hfit hlt _ ih =>
    intro b hb
    rcases List.mem_cons.1 hb with rfl | hb
    · exact ⟨hfit.1, hfit.2.1, le_refl _, hfit.2.2.1⟩
    · obtain ⟨h1, h2, h3, h4⟩ := ih b hb
      have hp : 0 < 2 ^ h := Nat.two_pow_pos h
      exact ⟨h1, h2, by omega, h4⟩

theorem greedy_head {W e c : Nat} {L : List (Nat × Nat)} (hg : Greedy W e c L) :
    ∃ h rest, L = (c, h) :: rest := by
  induction hg with
  | last c h hfit hend => exact ⟨h, [], rfl⟩
  | step c h rest hfit hlt hrest _ => exact ⟨h, rest, rfl⟩

theorem greedy_minimal {W e c : Nat} {L : List (Nat × Nat)} (hg : Greedy W e c L) :
    ∀ Q : List (Nat × Nat), (∀ q ∈ Q, q.2 ≤ W ∧ 2 ^ q.2 ∣ q.1) →
      (∀ x, (∃ q ∈ Q, q.1 ≤ x ∧ x < q.1 + 2 ^ q.2) ↔ (c ≤ x ∧ x ≤ e)) →
      L.length ≤ Q.length := by
  induction hg with
  | last c h hfit hend =>
    intro Q _ hcov
    have hp : 0 < 2 ^ h := Nat.two_pow_pos h
    obtain ⟨q, hq, _⟩ := (hcov c).2 ⟨le_refl _, by omega⟩
    have : 0 < Q.length := List.length_pos_of_mem hq
    simpa using this
  | step c h rest hfit hlt hrest ih =>
    intro Q hwf hcov
    have hp : 0 < 2 ^ h := Nat.two_pow_pos h
    have hin : ∀ q ∈ Q, c ≤ q.1 ∧ q.1 + 2 ^ q.2 ≤ e + 1 := by
      intro q hq
      have hpq : 0 < 2 ^ q.2 := Nat.two_pow_pos _
      have h1 := (hcov q.1).1 ⟨q, hq, le_refl _, by omega⟩
      have h2 := (hcov (q.1 + 2 ^ q.2 - 1)).1 ⟨q, hq, by omega, by omega⟩
      omega
    have hlen : (Q.filter (fun q => decide (c + 2 ^ h ≤ q.1))).length < Q.length := by
      obtain ⟨q, hq, hq1, _⟩ := (hcov c).2 ⟨le_refl _, by omega⟩
      apply List.length_filter_lt_length_iff_exists.2
      refine ⟨q, hq, ?_⟩
      simp only [decide_eq_true_eq]
      omega
    have hrec := ih (Q.filter (fun q => decide (c + 2 ^ h ≤ q.1)))
      (fun q hq => hwf q (List.mem_of_mem_filter hq))
      (by
        intro x
        constructor
        · rintro ⟨q, hq, hx1, hx2⟩
          have hq' := List.mem_filter.1 hq
          have hge : c + 2 ^ h ≤ q.1 := by simpa using hq'.2
          have := (hcov x).1 ⟨q, hq'.1, hx1, hx2⟩
          omega
        · rintro ⟨hx1, hx2⟩
          obtain ⟨q, hq, hq1, hq2⟩ := (hcov x).2 ⟨by omega, hx2⟩
          refine ⟨q, List.mem_filter.2 ⟨hq, ?_⟩, hq1, hq2⟩
          simp only [decide_eq_true_eq]
          exact block_after W c e h q.1 q.2 hfit (hwf q hq).1 (hwf q hq).2 (hin q hq).1
            (hin q hq).2 (by omega))
    simp only [List.length_cons]
    omega


theorem plainTag_of_valid (ip : Addr) (hv : ip.IsValid = true) (hz : ip.Zone = "") :
    PlainTag ip.z := by
  obtain ⟨a, z⟩ := ip
  cases z with
  | z0 => simp [Addr.IsValid] at hv
  | z4 => exact Or.inl rfl
  | z6 zone =>
    simp only [Addr.Zone] at hz
    subst hz
    exact Or.inr rfl

theorem validRange_tag {start end_ : Addr} (hr : ValidRange start end_) :
    PlainTag start.z ∧ end_.z = start.z ∧ start.addr ≤ end_.addr ∧
      end_.addr < 2 ^ start.BitLen := by
  obtain ⟨s, zs⟩ := start
  obtain ⟨e, ze⟩ := end_
  obtain ⟨hsv, hev, _, hin, hsz, hez, hfam, hord⟩ := hr
  have hps := plainTag_of_valid _ hsv hsz
  have hpe := plainTag_of_valid _ hev hez
  simp only at hps hpe
  have hzz : ze = zs := by
    rcases hps with rfl | rfl <;> rcases hpe with rfl | rfl <;> simp [Addr.Is4] at hfam ⊢
  subst hzz
  refine ⟨hps, rfl, ?_, hin⟩
  rw [compare_plain _ hps] at hord
  simp only
  by_contra hcon
  have h1 : ¬ (s < e) := by omega
  have h2 : s > e := by omega
  simp [h1, h2] at hord

theorem ipRangeToCIDRs_greedy (start end_ : Addr) (hr : ValidRange start end_) :
    ∃ L, Greedy start.BitLen end_.addr start.addr L ∧
      ∀ fuel, end_.addr - start.addr < fuel →
        ipRangeToCIDRs fuel start end_
          = some (L.map (blockPrefix start.z start.BitLen), none) := by
  obtain ⟨hp, hz, hle, hlt⟩ := validRange_tag hr
  obtain ⟨hsv, hev, _, _, _, _, hfam, hord⟩ := id hr
  obtain ⟨s, zs⟩ := start
  obtain ⟨e, ze⟩ := end_
  simp only at hz hle hlt hp
  subst hz
  obtain ⟨L, hL, hrun⟩ := ipRangeToCIDRs_loop_spec ze hp e (Addr.mk s ze).BitLen rfl hlt
    (e - s) s rfl hle
  refine ⟨L, hL, ?_⟩
  intro fuel hfuel
  have hnot : ¬ ((Addr.mk s ze).Compare ⟨e, ze⟩ > 0) := by omega
  simp only at hfuel
  simp [ipRangeToCIDRs, hsv, hev, hnot, hrun fuel [] hfuel, hfam]

theorem returns_of_greedy (start end_ : Addr) (hr : ValidRange start end_) :
    ∃ L, Greedy start.BitLen end_.addr start.addr L ∧
      Returns start end_ (L.map (blockPrefix start.z start.BitLen), none) := by
  obtain ⟨L, hL, hrun⟩ := ipRangeToCIDRs_greedy start end_ hr
  exact ⟨L, hL, end_.addr - start.addr + 1, fun fuel hf => hrun fuel (by omega)⟩


theorem ipRangeToCIDRs_loop_mono (end_ : Addr) (fuel : Nat) :
    ∀ (curr : Addr) (acc r : List Prefix),
      ipRangeToCIDRs.loop end_ fuel curr acc = some r →
      ∀ k, ipRangeToCIDRs.loop end_ (fuel + k) curr acc = some r := by
  induction fuel with
  | zero =>
    intro curr acc r h
    simp [ipRangeToCIDRs.loop] at h
  | succ f ih =>
    intro curr acc r h k
    have hk : f + 1 + k = (f + k) + 1 := by omega
    rw [hk]
    simp only [ipRangeToCIDRs.loop] at h ⊢
    by_cases hc : (findLargestPrefix curr end_).2.Compare end_ = 0
    · simpa [hc] using h
    · simp only [hc, if_false] at h ⊢
      exact ih _ _ _ h k

theorem ipRangeToCIDRs_mono (start end_ : Addr) (fuel : Nat)
    (r : List Prefix × Option RangeError) (h : ipRangeToCIDRs fuel start end_ = some r) :
    ∀ fuel2, fuel ≤ fuel2 → ipRangeToCIDRs fuel2 start end_ = some r := by
  intro fuel2 hle
  obtain ⟨k, rfl⟩ : ∃ k, fuel2 = fuel + k := ⟨fuel2 - fuel, by omega⟩
  unfold ipRangeToCIDRs at h ⊢
  split_ifs at h ⊢ with h1 h2 h3 h4
  · exact h
  · exact h
  · exact h
  · exact h
  · cases hl : ipRangeToCIDRs.loop end_ fuel start [] with
    | none => simp [hl] at h
    | some l =>
      rw [ipRangeToCIDRs_loop_mono end_ fuel start [] l hl k]
      simpa [hl] using h

theorem returns_of_eval (start end_ : Addr) (fuel : Nat)
    (r : List Prefix × Option RangeError) (h : ipRangeToCIDRs fuel start end_ = some r) :
    Returns start end_ r :=
  ⟨fuel, ipRangeToCIDRs_mono start end_ fuel r h⟩

theorem zone_empty_lt (zone : String) (h : zone ≠ "") : "" < zone := by
  rw [String.lt_iff_toList_lt]
  cases hz : zone.toList with
  | nil => exact absurd (String.ext hz) h
  | cons c cs => exact List.Lex.nil

theorem compare_self (ip : Addr) : ip.Compare ip = 0 := by
  simp [Addr.Compare]

theorem masked_zoned (a k : Nat) (zone : String) (hk : k ≤ 128) :
    (PrefixFrom ⟨a, Z.z6 zone⟩ (k : Int)).Masked
      = ⟨⟨a / 2 ^ (128 - k) * 2 ^ (128 - k), Z.z6 ""⟩, (k : Int)⟩ := by
  have h1 : (0 : Int) ≤ (k : Int) := by omega
  have h2 : ¬ ((k : Int) < 0) := by omega
  simp [Prefix.Masked, PrefixFrom, Addr.Prefix, Addr.withoutZone, Addr.IsValid, Addr.BitLen,
    Prefix.Bits, hk, h2, Nat.shiftLeft_eq, Nat.shiftRight_eq_div_pow]

theorem compare_stripped_ne (m a : Nat) (zone : String) (hzone : zone ≠ "") (hm : m ≤ a) :
    Addr.Compare ⟨m, Z.z6 ""⟩ ⟨a, Z.z6 zone⟩ ≠ 0 := by
  have hlt : (Addr.mk m (Z.z6 "")).Zone < (Addr.mk a (Z.z6 zone)).Zone :=
    zone_empty_lt zone hzone
  unfold Addr.Compare
  have hb : (Addr.mk m (Z.z6 "")).BitLen = (Addr.mk a (Z.z6 zone)).BitLen := rfl
  rw [if_neg (by rw [hb]; exact lt_irrefl _), if_neg (by rw [hb]; exact lt_irrefl _)]
  by_cases h1 : m < a
  · rw [if_pos h1]
    decide
  · have h2 : ¬ (m > a) := by omega
    have h6 : (Addr.mk m (Z.z6 "")).Is6 = true := rfl
    rw [if_neg h1, if_neg h2, if_pos h6, if_pos hlt]
    decide

/-- With a zone on `start` the scan stops at its first step: the candidate has lost
the zone and no longer compares equal to `start`. -/
theorem findLargestPrefix_zoned (a : Nat) (zone : String) (hzone : zone ≠ "") (end_ : Addr) :
    findLargestPrefix ⟨a, Z.z6 zone⟩ end_
      = (PrefixFrom ⟨a, Z.z6 zone⟩ ((128 : Nat) : Int), ⟨a, Z.z6 zone⟩) := by
  have hcmp := compare_stripped_ne _ a zone hzone (mask_le a (128 - 127))
  have hmask := masked_zoned a 127 zone (by omega)
  unfold findLargestPrefix
  show findLargestPrefix.loop _ _ (127 + 1) _ _ = _
  rw [findLargestPrefix.loop]
  simp only [hmask, Prefix.Addr]
  rw [if_pos hcmp]
  rfl

theorem greedy_exact {W e c : Nat} {L : List (Nat × Nat)} (hg : Greedy W e c L) (h : Nat)
    (hW : h ≤ W) (hd : 2 ^ h ∣ c) (hend : c + 2 ^ h = e + 1) : L = [(c, h)] := by
  have key : ∀ h2, LargestFit W c e h2 → h2 = h := by
    intro h2 hfit
    obtain ⟨_, _, hle, hmax⟩ := hfit
    have h1 : h ≤ h2 := hmax h hW hd (by omega)
    have h3 : 2 ^ h2 ≤ 2 ^ h := by omega
    have h4 : h2 ≤ h := (Nat.pow_le_pow_iff_right (by norm_num)).1 h3
    omega
  induction hg with
  | last c h2 hfit _ => rw [key h2 hfit]
  | step c h2 rest hfit hlt _ _ =>
    have := key h2 hfit
    subst this
    omega

/-! ## Properties of the decomposition -/

/-- A valid range used to instantiate the theorems: 192.168.1.254 to 192.168.2.1. -/
theorem validRange_example :
    ValidRange (AddrFrom4 ⟨192, 168, 1, 254⟩) (AddrFrom4 ⟨192, 168, 2, 1⟩) :=
  by decide

/-- The block `(address, host bits)` of a prefix. -/
theorem wellFormed_block (start end_ : Addr) (Q : List Prefix)
    (hwf : ∀ q ∈ Q, q.WellFormed)
    (hcov : ∀ x : Addr, (∃ q ∈ Q, q.Spans x) ↔
      (x.z = start.z ∧ start.addr ≤ x.addr ∧ x.addr ≤ end_.addr)) :
    (∀ b ∈ Q.map (fun q => (q.ip.addr, q.ip.BitLen - q.bits.toNat)),
      b.2 ≤ start.BitLen ∧ 2 ^ b.2 ∣ b.1) ∧
    (∀ x : Nat, (∃ b ∈ Q.map (fun q => (q.ip.addr, q.ip.BitLen - q.bits.toNat)),
        b.1 ≤ x ∧ x < b.1 + 2 ^ b.2) ↔ (start.addr ≤ x ∧ x ≤ end_.addr)) := by
  have hfam : ∀ q ∈ Q, q.ip.z = start.z := by
    intro q hq
    have hp : 0 < 2 ^ (q.ip.BitLen - q.bits.toNat) := Nat.two_pow_pos _
    exact ((hcov q.ip).1 ⟨q, hq, rfl, le_refl _, by omega⟩).1
  have hlen : ∀ q ∈ Q, q.ip.BitLen = start.BitLen := by
    intro q hq
    simp only [Addr.BitLen, hfam q hq]
  constructor
  · intro b hb
    obtain ⟨q, hq, rfl⟩ := List.mem_map.1 hb
    obtain ⟨_, _, _, _, _, hmod⟩ := hwf q hq
    refine ⟨?_, Nat.dvd_of_mod_eq_zero hmod⟩
    simp only [hlen q hq]
    omega
  · intro x
    have hc := hcov ⟨x, start.z⟩
    constructor
    · rintro ⟨b, hb, hx1, hx2⟩
      obtain ⟨q, hq, rfl⟩ := List.mem_map.1 hb
      simp only at hx1 hx2
      have := hc.1 ⟨q, hq, (hfam q hq).symm, hx1, by simp only; omega⟩
      exact this.2
    · rintro ⟨h1, h2⟩
      obtain ⟨q, hq, _, hq1, hq2⟩ := hc.2 ⟨rfl, h1, h2⟩
      have hp : 0 < 2 ^ (q.ip.BitLen - q.bits.toNat) := Nat.two_pow_pos _
      simp only at hq1 hq2
      exact ⟨_, List.mem_map_of_mem _ hq, hq1, by simp only; omega⟩

/-- Minimality without zones: for a valid range of zone-less addresses and any list
`Q` of well-formed prefixes whose spans have union exactly the addresses of the
range, `ipRangeToCIDRs` returns a list no longer than `Q`. -/
theorem ipRangeToCIDRs_minimal (start end_ : Addr) (hr : ValidRange start end_)
    (Q : List Prefix) (hwf : ∀ q ∈ Q, q.WellFormed)
    (hcov : ∀ x : Addr, (∃ q ∈ Q, q.Spans x) ↔
      (x.z = start.z ∧ start.addr ≤ x.addr ∧ x.addr ≤ end_.addr)) :
    ∃ prefixes, Returns start end_ (prefixes, none) ∧ prefixes.length ≤ Q.length := by
  obtain ⟨L, hL, hret⟩ := returns_of_greedy start end_ hr
  obtain ⟨h1, h2⟩ := wellFormed_block start end_ Q hwf hcov
  have := greedy_minimal hL _ h1 h2
  exact ⟨_, hret, by simpa using this⟩

theorem cover_example :
    ∀ x : Addr, (∃ q ∈ [(⟨AddrFrom4 ⟨192, 168, 1, 254⟩, 32⟩ : Prefix),
        ⟨AddrFrom4 ⟨192, 168, 1, 255⟩, 32⟩, ⟨AddrFrom4 ⟨192, 168, 2, 0⟩, 31⟩], q.Spans x) ↔
      (x.z = (AddrFrom4 ⟨192, 168, 1, 254⟩).z ∧
        (AddrFrom4 ⟨192, 168, 1, 254⟩).addr ≤ x.addr ∧
        x.addr ≤ (AddrFrom4 ⟨192, 168, 2, 1⟩).addr) := by
  intro x
  have e1 : Int.toNat 31 = 31 := rfl
  have e2 : Int.toNat 32 = 32 := rfl
  simp only [List.mem_cons, List.mem_singleton, List.not_mem_nil, or_false, exists_eq_or_imp,
    exists_eq_left, Prefix.Spans, AddrFrom4, Addr.BitLen, e1, e2]
  norm_num
  constructor
  · rintro (⟨h1, h2, h3⟩ | ⟨h1, h2, h3⟩ | ⟨h1, h2, h3⟩) <;> exact ⟨h1, by omega, by omega⟩
  · rintro ⟨h1, h2, h3⟩
    by_cases ha : x.addr = 3232236030
    · exact Or.inl ⟨h1, by omega, by omega⟩
    · by_cases hb : x.addr = 3232236031
      · exact Or.inr (Or.inl ⟨h1, by omega, by omega⟩)
      · exact Or.inr (Or.inr ⟨h1, by omega, by omega⟩)

theorem ipRangeToCIDRs_minimal_witness :
    ValidRange (AddrFrom4 ⟨192, 168, 1, 254⟩) (AddrFrom4 ⟨192, 168, 2, 1⟩) ∧
    (∀ q ∈ [(⟨AddrFrom4 ⟨192, 168, 1, 254⟩, 32⟩ : Prefix),
        ⟨AddrFrom4 ⟨192, 168, 1, 255⟩, 32⟩, ⟨AddrFrom4 ⟨192, 168, 2, 0⟩, 31⟩],
      q.WellFormed) ∧
    ∃ prefixes, Returns (AddrFrom4 ⟨192, 168, 1, 254⟩) (AddrFrom4 ⟨192, 168, 2, 1⟩)
        (prefixes, none) ∧ prefixes.length ≤ 3 :=
  ⟨validRange_example, by decide,
    ipRangeToCIDRs_minimal _ _ validRange_example _ (by decide) cover_example⟩

/-- Errors without zones: `ipRangeToCIDRs` returns an error exactly when `start` is
invalid, or `end_` is invalid, or the two are of different families, or
`start > end_`; with an error the prefix list is nil; in every other case it returns
a non-empty prefix list and no error.  The addresses are zone-less values of their
family. -/
theorem ipRangeToCIDRs_error_iff (start end_ : Addr) (hs : start.InRange) (he : end_.InRange)
    (hzs : start.Zone = "") (hze : end_.Zone = "") :
    ((∃ l err, Returns start end_ (l, some err)) ↔
      (start.IsValid = false ∨ end_.IsValid = false ∨ start.Is4 ≠ end_.Is4 ∨
        start.Compare end_ > 0)) ∧
    (∀ fuel l err, ipRangeToCIDRs fuel start end_ = some (l, some err) → l = []) ∧
    (¬ (start.IsValid = false ∨ end_.IsValid = false ∨ start.Is4 ≠ end_.Is4 ∨
        start.Compare end_ > 0) →
      ∃ prefixes, prefixes ≠ [] ∧ Returns start end_ (prefixes, none)) := by
  have honly : ∀ fuel l err, ipRangeToCIDRs fuel start end_ = some (l, some err) →
      l = [] ∧ (start.IsValid = false ∨ end_.IsValid = false ∨ start.Is4 ≠ end_.Is4 ∨
        start.Compare end_ > 0) := by
    intro fuel l err h
    unfold ipRangeToCIDRs at h
    split_ifs at h with h1 h2 h3 h4
    · simp only [Option.some.injEq, Prod.mk.injEq] at h
      exact ⟨h.1.symm, Or.inl h1⟩
    · simp only [Option.some.injEq, Prod.mk.injEq] at h
      exact ⟨h.1.symm, Or.inr (Or.inl h2)⟩
    · simp only [Option.some.injEq, Prod.mk.injEq] at h
      exact ⟨h.1.symm, Or.inr (Or.inr (Or.inl h3))⟩
    · simp only [Option.some.injEq, Prod.mk.injEq] at h
      exact ⟨h.1.symm, Or.inr (Or.inr (Or.inr h4))⟩
    · cases hl : ipRangeToCIDRs.loop end_ fuel start [] with
      | none => simp [hl] at h
      | some l2 => simp [hl] at h
  refine ⟨⟨?_, ?_⟩, fun fuel l err h => (honly fuel l err h).1, ?_⟩
  · rintro ⟨l, err, n, hn⟩
    exact (honly n l err (hn n (le_refl _))).2
  · intro hc
    unfold Returns ipRangeToCIDRs
    by_cases h1 : start.IsValid = false
    · exact ⟨_, _, 0, fun fuel _ => by rw [if_pos h1]⟩
    · by_cases h2 : end_.IsValid = false
      · exact ⟨_, _, 0, fun fuel _ => by rw [if_neg h1, if_pos h2]⟩
      · by_cases h3 : start.Is4 ≠ end_.Is4
        · exact ⟨_, _, 0, fun fuel _ => by rw [if_neg h1, if_neg h2, if_pos h3]⟩
        · have h4 : start.Compare end_ > 0 := by
            rcases hc with h | h | h | h
            · exact absurd h h1
            · exact absurd h h2
            · exact absurd h h3
            · exact h
          exact ⟨_, _, 0, fun fuel _ => by rw [if_neg h1, if_neg h2, if_neg h3, if_pos h4]⟩
  · intro hc
    have hr : ValidRange start end_ := by
      refine ⟨?_, ?_, hs, he, hzs, hze, ?_, ?_⟩
      · by_contra h
        exact hc (Or.inl (by simpa using h))
      · by_contra h
        exact hc (Or.inr (Or.inl (by simpa using h)))
      · by_contra h
        exact hc (Or.inr (Or.inr (Or.inl h)))
      · by_contra h
        exact hc (Or.inr (Or.inr (Or.inr (by omega))))
    obtain ⟨L, hL, hret⟩ := returns_of_greedy start end_ hr
    obtain ⟨h, rest, rfl⟩ := greedy_head hL
    exact ⟨_, by simp, hret⟩

theorem ipRangeToCIDRs_error_iff_witness :
    (AddrFrom4 ⟨192, 168, 1, 10⟩).InRange ∧ (AddrFrom4 ⟨192, 168, 1, 5⟩).InRange ∧
    (AddrFrom4 ⟨192, 168, 1, 10⟩).Zone = "" ∧ (AddrFrom4 ⟨192, 168, 1, 5⟩).Zone = "" ∧
    (((∃ l err, Returns (AddrFrom4 ⟨192, 168, 1, 10⟩) (AddrFrom4 ⟨192, 168, 1, 5⟩)
          (l, some err)) ↔
      ((AddrFrom4 ⟨192, 168, 1, 10⟩).IsValid = false ∨
        (AddrFrom4 ⟨192, 168, 1, 5⟩).IsValid = false ∨
        (AddrFrom4 ⟨192, 168, 1, 10⟩).Is4 ≠ (AddrFrom4 ⟨192, 168, 1, 5⟩).Is4 ∨
        (AddrFrom4 ⟨192, 168, 1, 10⟩).Compare (AddrFrom4 ⟨192, 168, 1, 5⟩) > 0)) ∧
    (∀ fuel l err,
      ipRangeToCIDRs fuel (AddrFrom4 ⟨192, 168, 1, 10⟩) (AddrFrom4 ⟨192, 168, 1, 5⟩)
        = some (l, some err) → l = []) ∧
    (¬ ((AddrFrom4 ⟨192, 168, 1, 10⟩).IsValid = false ∨
        (AddrFrom4 ⟨192, 168, 1, 5⟩).IsValid = false ∨
        (AddrFrom4 ⟨192, 168, 1, 10⟩).Is4 ≠ (AddrFrom4 ⟨192, 168, 1, 5⟩).Is4 ∨
        (AddrFrom4 ⟨192, 168, 1, 10⟩).Compare (AddrFrom4 ⟨192, 168, 1, 5⟩) > 0) →
      ∃ prefixes, prefixes ≠ [] ∧
        Returns (AddrFrom4 ⟨192, 168, 1, 10⟩) (AddrFrom4 ⟨192, 168, 1, 5⟩) (prefixes, none))) :=
  ⟨by decide, by decide, rfl, rfl,
    ipRangeToCIDRs_error_iff _ _ (by decide) (by decide) rfl rfl⟩

/-- C6. The error of `ipRangeToCIDRs` is that of the first failing check, in the order
start invalid, end invalid, family mismatch, inverted range.  For an IPv6 `start`
and an IPv4 `end_`, which `Compare` orders as `start > end_`, the error is the
family mismatch; the inverted-range error is reported only for two valid addresses
of one family. -/
theorem ipRangeToCIDRs_error_order (start end_ : Addr) (fuel : Nat) :
    (start.IsValid = false →
      ipRangeToCIDRs fuel start end_ = some ([], some (RangeError.startNotValid start))) ∧
    (start.IsValid = true → end_.IsValid = false →
      ipRangeToCIDRs fuel start end_ = some ([], some (RangeError.endNotValid end_))) ∧
    (start.IsValid = true → end_.IsValid = true → start.Is4 ≠ end_.Is4 →
      ipRangeToCIDRs fuel start end_
        = some ([], some (RangeError.familyMismatch start end_))) ∧
    (start.IsValid = true → end_.IsValid = true → start.Is4 = end_.Is4 →
      start.Compare end_ > 0 →
      ipRangeToCIDRs fuel start end_
        = some ([], some (RangeError.startGreaterThanEnd start end_))) ∧
    (start.Is6 = true → end_.Is4 = true →
      start.Compare end_ > 0 ∧
      ipRangeToCIDRs fuel start end_
        = some ([], some (RangeError.familyMismatch start end_))) ∧
    (∀ l s e, ipRangeToCIDRs fuel start end_
        = some (l, some (RangeError.startGreaterThanEnd s e)) →
      start.IsValid = true ∧ end_.IsValid = true ∧ start.Is4 = end_.Is4 ∧
        start.Compare end_ > 0) := by
  refine ⟨?_, ?_, ?_, ?_, ?_, ?_⟩
  · intro h1
    simp [ipRangeToCIDRs, h1]
  · intro h1 h2
    simp [ipRangeToCIDRs, h1, h2]
  · intro h1 h2 h3
    simp [ipRangeToCIDRs, h1, h2, h3]
  · intro h1 h2 h3 h4
    simp [ipRangeToCIDRs, h1, h2, h3, h4]
  · intro h6 h4
    obtain ⟨s, zs⟩ := start
    obtain ⟨e, ze⟩ := end_
    cases zs <;> cases ze <;> simp [Addr.Is6, Addr.Is4] at h6 h4
    simp [ipRangeToCIDRs, Addr.IsValid, Addr.Is4, Addr.Compare, Addr.BitLen]
  · intro l s e h
    unfold ipRangeToCIDRs at h
    split_ifs at h with h1 h2 h3 h4
    · simp at h
    · simp at h
    · simp at h
    · refine ⟨by simpa using h1, by simpa using h2, by simpa using h3, h4⟩
    · cases hl : ipRangeToCIDRs.loop end_ fuel start [] with
      | none => simp [hl] at h
      | some l2 => simp [hl] at h

theorem findLargestPrefix_self (a : Addr) (hv : a.IsValid = true) (hin : a.InRange) :
    findLargestPrefix a a = (PrefixFrom a (a.BitLen : Int), a) := by
  obtain ⟨v, z⟩ := a
  by_cases hz : (Addr.mk v z).Zone = ""
  · have hp := plainTag_of_valid _ hv hz
    obtain ⟨h, hfit, hres⟩ := findLargestPrefix_spec z hp v v _ rfl hin (le_refl _)
    have h0 : h = 0 := by
      obtain ⟨_, _, hle, _⟩ := hfit
      have h1 : 2 ^ h ≤ 2 ^ 0 := by simpa using hle
      have := (Nat.pow_le_pow_iff_right (by norm_num : 1 < 2)).1 h1
      omega
    subst h0
    rw [hres, prefixFrom_plain z hp v _ _ rfl (le_refl _)]
    simp
  · cases z with
    | z0 => simp [Addr.IsValid] at hv
    | z4 => simp [Addr.Zone] at hz
    | z6 zone =>
      simp only [Addr.Zone] at hz
      exact findLargestPrefix_zoned v zone hz _

/-- C7. For every valid address `a` of either family, `ipRangeToCIDRs a a` returns
exactly one prefix: `a` with prefix length equal to the bit width of its family. -/
theorem ipRangeToCIDRs_single (a : Addr) (hv : a.IsValid = true) (hin : a.InRange) :
    Returns a a ([PrefixFrom a (a.BitLen : Int)], none) := by
  apply returns_of_eval a a 1
  have hnv : ¬ (a.IsValid = false) := by simp [hv]
  simp [ipRangeToCIDRs, ipRangeToCIDRs.loop, hv, compare_self, findLargestPrefix_self a hv hin]

theorem ipRangeToCIDRs_single_witness :
    (AddrFrom4 ⟨192, 168, 1, 1⟩).IsValid = true ∧ (AddrFrom4 ⟨192, 168, 1, 1⟩).InRange ∧
    Returns (AddrFrom4 ⟨192, 168, 1, 1⟩) (AddrFrom4 ⟨192, 168, 1, 1⟩)
      ([PrefixFrom (AddrFrom4 ⟨192, 168, 1, 1⟩) ((AddrFrom4 ⟨192, 168, 1, 1⟩).BitLen : Int)],
        none) :=
  ⟨rfl, by decide, ipRangeToCIDRs_single _ rfl (by decide)⟩

/-- Exact blocks without zones: a range that is one CIDR block decomposes to that
block.  For a valid, zone-less address `start` of width `W` whose low `h` bits are
zero (`h ≤ W`), `ipRangeToCIDRs` on `start .. start + 2^h - 1` returns the single
prefix `start/(W-h)`; with `h = W` this is the whole address space. -/
theorem ipRangeToCIDRs_exact_block (start : Addr) (h : Nat) (hv : start.IsValid = true)
    (hin : start.InRange) (hz : start.Zone = "") (hh : h ≤ start.BitLen)
    (hal : start.addr % 2 ^ h = 0) :
    Returns start ⟨start.addr + 2 ^ h - 1, start.z⟩
      ([⟨start, ((start.BitLen - h : Nat) : Int)⟩], none) := by
  have hd : 2 ^ h ∣ start.addr := Nat.dvd_of_mod_eq_zero hal
  have hp : 0 < 2 ^ h := Nat.two_pow_pos h
  have hle := aligned_add_le start.addr h start.BitLen hh hin hd
  have hpt := plainTag_of_valid _ hv hz
  have hr : ValidRange start ⟨start.addr + 2 ^ h - 1, start.z⟩ := by
    refine ⟨hv, hv, hin, ?_, hz, hz, rfl, ?_⟩
    · show start.addr + 2 ^ h - 1 < 2 ^ start.BitLen
      omega
    · have := compare_plain start.z hpt start.addr (start.addr + 2 ^ h - 1)
      show Addr.Compare ⟨start.addr, start.z⟩ _ ≤ 0
      rw [this]
      split_ifs <;> omega
  obtain ⟨L, hL, hret⟩ := returns_of_greedy _ _ hr
  have hex := greedy_exact hL h hh hd (by simp only; omega)
  subst hex
  exact hret

theorem ipRangeToCIDRs_exact_block_witness :
    (AddrFrom4 ⟨192, 168, 1, 0⟩).IsValid = true ∧ (AddrFrom4 ⟨192, 168, 1, 0⟩).InRange ∧
    (AddrFrom4 ⟨192, 168, 1, 0⟩).Zone = "" ∧ 8 ≤ (AddrFrom4 ⟨192, 168, 1, 0⟩).BitLen ∧
    (AddrFrom4 ⟨192, 168, 1, 0⟩).addr % 2 ^ 8 = 0 ∧
    Returns (AddrFrom4 ⟨192, 168, 1, 0⟩)
      ⟨(AddrFrom4 ⟨192, 168, 1, 0⟩).addr + 2 ^ 8 - 1, (AddrFrom4 ⟨192, 168, 1, 0⟩).z⟩
      ([⟨AddrFrom4 ⟨192, 168, 1, 0⟩, (((AddrFrom4 ⟨192, 168, 1, 0⟩).BitLen - 8 : Nat) : Int)⟩],
        none) :=
  ⟨rfl, by decide, rfl, by decide, by decide,
    ipRangeToCIDRs_exact_block _ 8 rfl (by decide) rfl (by decide) (by decide)⟩

set_option maxRecDepth 100000 in
/-- C9. `ipRangeToCIDRs 10.0.0.1 10.0.1.254` returns exactly the sixteen prefixes
10.0.0.1/32, 10.0.0.2/31, 10.0.0.4/30, 10.0.0.8/29, 10.0.0.16/28, 10.0.0.32/27,
10.0.0.64/26, 10.0.0.128/25, 10.0.1.0/25, 10.0.1.128/26, 10.0.1.192/27, 10.0.1.224/28,
10.0.1.240/29, 10.0.1.248/30, 10.0.1.252/31, 10.0.1.254/32, in this order, and no
error. -/
theorem ipRangeToCIDRs_diamond :
    Returns (AddrFrom4 ⟨10, 0, 0, 1⟩) (AddrFrom4 ⟨10, 0, 1, 254⟩)
      ([⟨AddrFrom4 ⟨10, 0, 0, 1⟩, 32⟩, ⟨AddrFrom4 ⟨10, 0, 0, 2⟩, 31⟩,
        ⟨AddrFrom4 ⟨10, 0, 0, 4⟩, 30⟩, ⟨AddrFrom4 ⟨10, 0, 0, 8⟩, 29⟩,
        ⟨AddrFrom4 ⟨10, 0, 0, 16⟩, 28⟩, ⟨AddrFrom4 ⟨10, 0, 0, 32⟩, 27⟩,
        ⟨AddrFrom4 ⟨10, 0, 0, 64⟩, 26⟩, ⟨AddrFrom4 ⟨10, 0, 0, 128⟩, 25⟩,
        ⟨AddrFrom4 ⟨10, 0, 1, 0⟩, 25⟩, ⟨AddrFrom4 ⟨10, 0, 1, 128⟩, 26⟩,
        ⟨AddrFrom4 ⟨10, 0, 1, 192⟩, 27⟩, ⟨AddrFrom4 ⟨10, 0, 1, 224⟩, 28⟩,
        ⟨AddrFrom4 ⟨10, 0, 1, 240⟩, 29⟩, ⟨AddrFrom4 ⟨10, 0, 1, 248⟩, 30⟩,
        ⟨AddrFrom4 ⟨10, 0, 1, 252⟩, 31⟩, ⟨AddrFrom4 ⟨10, 0, 1, 254⟩, 32⟩], none) :=
  returns_of_eval _ _ 16 _ (by decide)

/-- C10. For every well-formed prefix `a/n` of either family, `getLastAddr` returns the
address of the same family with value `a + 2^(W-n) - 1`: its low `W - n` bits are all
one, its high `n` bits are those of `a`, and for `n = W` it is `a` itself. -/
theorem getLastAddr_wellFormed (p : Prefix) (hwf : p.WellFormed) :
    getLastAddr p = ⟨p.ip.addr + 2 ^ (p.ip.BitLen - p.bits.toNat) - 1, p.ip.z⟩ ∧
    (getLastAddr p).addr % 2 ^ (p.ip.BitLen - p.bits.toNat)
      = 2 ^ (p.ip.BitLen - p.bits.toNat) - 1 ∧
    (getLastAddr p).addr / 2 ^ (p.ip.BitLen - p.bits.toNat)
      = p.ip.addr / 2 ^ (p.ip.BitLen - p.bits.toNat) ∧
    (p.bits = (p.ip.BitLen : Int) → getLastAddr p = p.ip) := by
  obtain ⟨⟨a, z⟩, n⟩ := p
  obtain ⟨hv, hin, hz, hn0, hnW, hmod⟩ := hwf
  simp only at hv hin hz hn0 hnW hmod ⊢
  have hpt := plainTag_of_valid _ hv hz
  obtain ⟨k, rfl⟩ : ∃ k : Nat, n = (k : Int) := ⟨n.toNat, by omega⟩
  simp only [Int.toNat_ofNat] at hmod ⊢
  have hk : k ≤ (Addr.mk a z).BitLen := by omega
  have hd : 2 ^ ((Addr.mk a z).BitLen - k) ∣ a := Nat.dvd_of_mod_eq_zero hmod
  have hres := getLastAddr_plain z hpt a k _ rfl hin hk hd
  have hp : 0 < 2 ^ ((Addr.mk a z).BitLen - k) := Nat.two_pow_pos _
  rw [hres]
  refine ⟨rfl, ?_, ?_, ?_⟩
  · simp only
    generalize 2 ^ ((Addr.mk a z).BitLen - k) = P at hd hp
    obtain ⟨q, rfl⟩ := hd
    have e1 : P * q + P - 1 = (P - 1) + P * q := by omega
    rw [e1, Nat.add_mul_mod_self_left]
    exact Nat.mod_eq_of_lt (by omega)
  · simp only
    generalize 2 ^ ((Addr.mk a z).BitLen - k) = P at hd hp
    obtain ⟨q, rfl⟩ := hd
    have e1 : P * q + P - 1 = (P - 1) + P * q := by omega
    rw [e1, Nat.add_mul_div_left _ _ hp, Nat.div_eq_of_lt (by omega),
      Nat.mul_div_cancel_left _ hp]
    omega
  · intro hkW
    have : k = (Addr.mk a z).BitLen := by omega
    rw [← this]
    simp

theorem getLastAddr_wellFormed_witness :
    (⟨AddrFrom16 [0x20, 0x01, 0x0d, 0xb8, 0x00, 0x01, 0, 0, 0, 0, 0, 0, 0, 0, 0, 0], 56⟩
      : Prefix).WellFormed ∧
    getLastAddr ⟨AddrFrom16 [0x20, 0x01, 0x0d, 0xb8, 0x00, 0x01, 0, 0, 0, 0, 0, 0, 0, 0, 0, 0], 56⟩
      = AddrFrom16 [0x20, 0x01, 0x0d, 0xb8, 0x00, 0x01, 0x00, 0xff,
          0xff, 0xff, 0xff, 0xff, 0xff, 0xff, 0xff, 0xff] :=
  ⟨by decide,
    (getLastAddr_wellFormed
      ⟨AddrFrom16 [0x20, 0x01, 0x0d, 0xb8, 0x00, 0x01, 0, 0, 0, 0, 0, 0, 0, 0, 0, 0], 56⟩
      (by decide)).1.trans (by decide)⟩

/-! ## The scan, the loop positions and the shape of the result -/

theorem compare_plain_le (z : Z) (hz : PlainTag z) (x y : Nat) :
    Addr.Compare ⟨x, z⟩ ⟨y, z⟩ ≤ 0 ↔ x ≤ y := by
  rw [compare_plain z hz]
  split_ifs <;> simp <;> omega

theorem compare_plain_eq (z : Z) (hz : PlainTag z) (x y : Nat) :
    Addr.Compare ⟨x, z⟩ ⟨y, z⟩ = 0 ↔ x = y := by
  rw [compare_plain z hz]
  split_ifs <;> simp <;> omega

theorem compare_plain_lt (z : Z) (hz : PlainTag z) (x y : Nat) :
    Addr.Compare ⟨x, z⟩ ⟨y, z⟩ < 0 ↔ x < y := by
  rw [compare_plain z hz]
  split_ifs <;> simp <;> omega

/-- The scan on a valid range, in numbers: the result is `start/(W-h)` and the last
address `start + 2^h - 1`, for the largest fitting `h`. -/
theorem findLargestPrefix_validRange {start end_ : Addr} (hr : ValidRange start end_) :
    ∃ h, LargestFit start.BitLen start.addr end_.addr h ∧
      findLargestPrefix start end_
        = (⟨start, ((start.BitLen - h : Nat) : Int)⟩, ⟨start.addr + 2 ^ h - 1, start.z⟩) := by
  obtain ⟨hp, hz, hle, hlt⟩ := validRange_tag hr
  obtain ⟨s, zs⟩ := start
  obtain ⟨e, ze⟩ := end_
  simp only at hz hle hlt hp
  subst hz
  exact findLargestPrefix_spec ze hp s e _ rfl (by omega) hle

theorem next_aligned (c h : Nat) (hd : 2 ^ h ∣ c) (hnd : ¬ 2 ^ (h + 1) ∣ c) :
    2 ^ (h + 1) ∣ c + 2 ^ h ∧ 2 ^ (h + 1) ≤ c + 2 ^ h := by
  obtain ⟨q, rfl⟩ := hd
  have hodd : q % 2 = 1 := by
    by_contra hq
    apply hnd
    have : q = 2 * (q / 2) := by omega
    rw [this, pow_succ]
    exact ⟨q / 2, by ring⟩
  have hq : q + 1 = 2 * ((q + 1) / 2) := by omega
  have hp : 0 < 2 ^ h := Nat.two_pow_pos h
  constructor
  · refine ⟨(q + 1) / 2, ?_⟩
    calc 2 ^ h * q + 2 ^ h = 2 ^ h * (q + 1) := by ring
      _ = 2 ^ h * (2 * ((q + 1) / 2)) := by rw [← hq]
      _ = 2 ^ (h + 1) * ((q + 1) / 2) := by rw [pow_succ]; ring
  · have hq1 : 1 ≤ q := by omega
    calc 2 ^ (h + 1) = 2 ^ h * 1 + 2 ^ h := by rw [pow_succ]; ring
      _ ≤ 2 ^ h * q + 2 ^ h := by
        apply Nat.add_le_add_right
        exact Nat.mul_le_mul_left _ hq1

/-- Once the fit in `c..e` is what limits the block (the position is aligned beyond
the room left), the host bits fall strictly from block to block. -/
theorem greedy_descending {W e c : Nat} {L : List (Nat × Nat)} (hg : Greedy W e c L) :
    ∀ j, j ≤ W → 2 ^ j ∣ c → e + 1 - c < 2 ^ j →
      L.length ≤ j ∧ (∀ b ∈ L, b.2 < j) ∧ (L.map Prod.snd).Pairwise (fun x y => x > y) := by
  induction hg with
  | last c h hfit hend =>
    intro j _ _ hroom
    have hlt : 2 ^ h < 2 ^ j := by omega
    have hhj : h < j := (Nat.pow_lt_pow_iff_right (by norm_num)).1 hlt
    refine ⟨by simp only [List.length_singleton]; omega, ?_, by simp⟩
    intro b hb
    simp only [List.mem_singleton] at hb
    subst hb
    exact hhj
  | step c h rest hfit hlt hrest ih =>
    intro j hjW hjd hroom
    obtain ⟨hW, hd, hle, hmax⟩ := hfit
    have hlt2 : 2 ^ h < 2 ^ j := by omega
    have hhj : h < j := (Nat.pow_lt_pow_iff_right (by norm_num)).1 hlt2
    have hd1 : 2 ^ (h + 1) ∣ c := Dvd.dvd.trans (pow_dvd_pow 2 hhj) hjd
    have hnofit : ¬ (c + 2 ^ (h + 1) ≤ e + 1) := by
      intro hcon
      have := hmax (h + 1) (by omega) hd1 hcon
      omega
    have hpow : 2 ^ (h + 1) = 2 ^ h + 2 ^ h := by rw [pow_succ]; ring
    obtain ⟨h1, h2, h3⟩ := ih h hW (Dvd.dvd.add hd (dvd_refl _)) (by omega)
    refine ⟨by simp only [List.length_cons]; omega, ?_, ?_⟩
    · intro b hb
      rcases List.mem_cons.1 hb with rfl | hb
      · exact hhj
      · have := h2 b hb
        omega
    · simp only [List.map_cons]
      refine List.Pairwise.cons ?_ h3
      intro x hx
      obtain ⟨b, hb, rfl⟩ := List.mem_map.1 hx
      exact h2 b hb

/-- The split of a step of the greedy decomposition: either the block at `c` is
limited by the fit (and what follows descends), or by the alignment of `c` (and
the next position is aligned one bit further). -/
theorem greedy_step_cases {W e c h : Nat} (he : e < 2 ^ W) (hfit : LargestFit W c e h)
    (hlt : c + 2 ^ h < e + 1) :
    (2 ^ (h + 1) ∣ c ∧ h < W ∧ e + 1 - (c + 2 ^ h) < 2 ^ h) ∨
    (¬ 2 ^ (h + 1) ∣ c ∧ h + 1 < W ∧ 2 ^ (h + 1) ∣ c + 2 ^ h) := by
  obtain ⟨hW, hd, hle, hmax⟩ := hfit
  have hpow : 2 ^ (h + 1) = 2 ^ h + 2 ^ h := by rw [pow_succ]; ring
  have hp : 0 < 2 ^ h := Nat.two_pow_pos h
  by_cases hd1 : 2 ^ (h + 1) ∣ c
  · left
    have hhW : h < W := by
      by_contra hcon
      have : h = W := by omega
      subst this
      omega
    refine ⟨hd1, hhW, ?_⟩
    have hnofit : ¬ (c + 2 ^ (h + 1) ≤ e + 1) := by
      intro hcon
      have := hmax (h + 1) (by omega) hd1 hcon
      omega
    omega
  · right
    obtain ⟨h1, h2⟩ := next_aligned c h hd hd1
    refine ⟨hd1, ?_, h1⟩
    have : 2 ^ (h + 1) < 2 ^ W := by omega
    exact (Nat.pow_lt_pow_iff_right (by norm_num)).1 this

theorem greedy_length {W e c : Nat} {L : List (Nat × Nat)} (hg : Greedy W e c L)
    (he : e < 2 ^ W) : ∀ i, i < W → 2 ^ i ∣ c → L.length + i ≤ 2 * W - 1 := by
  induction hg with
  | last c h hfit hend =>
    intro i hi _
    simp only [List.length_singleton]
    omega
  | step c h rest hfit hlt hrest ih =>
    intro i hi hid
    simp only [List.length_cons]
    rcases greedy_step_cases he hfit hlt with ⟨_, hhW, hroom⟩ | ⟨hnd, hhW, hd2⟩
    · have := (greedy_descending hrest h hfit.1 (Dvd.dvd.add hfit.2.1 (dvd_refl _)) hroom).1
      omega
    · have hih : i ≤ h := by
        by_contra hcon
        exact hnd (Dvd.dvd.trans (pow_dvd_pow 2 (by omega)) hid)
      have := ih (h + 1) hhW hd2
      omega

theorem greedy_shape {W e c : Nat} {L : List (Nat × Nat)} (hg : Greedy W e c L)
    (he : e < 2 ^ W) : ∀ i, 2 ^ i ∣ c →
      ∃ L1 L2, L = L1 ++ L2 ∧ (L1.map Prod.snd).Pairwise (fun x y => x < y) ∧
        (∀ b ∈ L1, i ≤ b.2) ∧ (L2.map Prod.snd).Pairwise (fun x y => x > y) := by
  induction hg with
  | last c h hfit hend =>
    intro i _
    exact ⟨[], [(c, h)], rfl, by simp, by simp, by simp⟩
  | step c h rest hfit hlt hrest ih =>
    intro i hid
    rcases greedy_step_cases he hfit hlt with ⟨_, hhW, hroom⟩ | ⟨hnd, hhW, hd2⟩
    · obtain ⟨_, h2, h3⟩ :=
        greedy_descending hrest h hfit.1 (Dvd.dvd.add hfit.2.1 (dvd_refl _)) hroom
      refine ⟨[], (c, h) :: rest, rfl, by simp, by simp, ?_⟩
      simp only [List.map_cons]
      refine List.Pairwise.cons ?_ h3
      intro x hx
      obtain ⟨b, hb, rfl⟩ := List.mem_map.1 hx
      exact h2 b hb
    · have hih : i ≤ h := by
        by_contra hcon
        exact hnd (Dvd.dvd.trans (pow_dvd_pow 2 (by omega)) hid)
      obtain ⟨L1, L2, rfl, h1, h2, h3⟩ := ih (h + 1) hd2
      refine ⟨(c, h) :: L1, L2, rfl, ?_, ?_, h3⟩
      · simp only [List.map_cons]
        refine List.Pairwise.cons ?_ h1
        intro x hx
        obtain ⟨b, hb, rfl⟩ := List.mem_map.1 hx
        have := h2 b hb
        omega
      · intro b hb
        rcases List.mem_cons.1 hb with rfl | hb
        · exact hih
        · have := h2 b hb
          omega

/-- One iteration of the driving loop at a position `curr` with `curr ≤ end_`: the
last address found is `curr + 2^h - 1 ≤ end_`, and when it is not `end_` the next
position `curr + 2^h` is again a valid position at or below `end_`. -/
theorem loop_step {curr end_ : Addr} (hr : ValidRange curr end_) :
    ∃ h, LargestFit curr.BitLen curr.addr end_.addr h ∧
      findLargestPrefix curr end_
        = (⟨curr, ((curr.BitLen - h : Nat) : Int)⟩, ⟨curr.addr + 2 ^ h - 1, curr.z⟩) ∧
      ((findLargestPrefix curr end_).2.Compare end_ = 0 ↔ curr.addr + 2 ^ h - 1 = end_.addr) ∧
      ((findLargestPrefix curr end_).2.Compare end_ ≠ 0 →
        curr.addr + 2 ^ h ≤ end_.addr ∧
        (findLargestPrefix curr end_).2.Next = ⟨curr.addr + 2 ^ h, curr.z⟩ ∧
        ValidRange ⟨curr.addr + 2 ^ h, curr.z⟩ end_) := by
  obtain ⟨h, hfit, hres⟩ := findLargestPrefix_validRange hr
  obtain ⟨hp, hz, hle, hlt⟩ := validRange_tag hr
  obtain ⟨hsv, hev, hsin, hein, hsz, hez, hfam, _⟩ := id hr
  refine ⟨h, hfit, hres, ?_, ?_⟩
  · rw [hres]
    obtain ⟨e, ze⟩ := end_
    simp only at hz
    subst hz
    simp only
    exact compare_plain_eq _ hp _ _
  · intro hne
    obtain ⟨_, _, hfit2, _⟩ := id hfit
    have hp2 : 0 < 2 ^ h := Nat.two_pow_pos h
    have hlast : curr.addr + 2 ^ h - 1 ≠ end_.addr := by
      intro hcon
      apply hne
      rw [hres]
      obtain ⟨e, ze⟩ := end_
      simp only at hz hcon
      subst hz
      exact (compare_plain_eq _ hp _ _).2 hcon
    have hnext : curr.addr + 2 ^ h ≤ end_.addr := by omega
    refine ⟨hnext, ?_, ?_⟩
    · rw [hres]
      simp only
      rw [next_plain curr.z hp (curr.addr + 2 ^ h - 1) curr.BitLen rfl (by omega)]
      congr 1
      omega
    · refine ⟨hsv, hev, ?_, hein, hsz, hez, hfam, ?_⟩
      · show curr.addr + 2 ^ h < 2 ^ curr.BitLen
        omega
      · obtain ⟨e, ze⟩ := end_
        simp only at hz hnext
        subst hz
        exact (compare_plain_le _ hp _ _).2 hnext

theorem position_valid {start end_ : Addr} (hr : ValidRange start end_) :
    ∀ curr, ipRangeToCIDRs.Position start end_ curr →
      ValidRange curr end_ ∧ start.addr ≤ curr.addr ∧ curr.z = start.z := by
  intro curr hpos
  induction hpos with
  | first => exact ⟨hr, le_refl _, rfl⟩
  | next c _ hne ih =>
    obtain ⟨hv, hle, hz⟩ := ih
    obtain ⟨h, _, _, _, hstep⟩ := loop_step hv
    obtain ⟨_, hnext, hvalid⟩ := hstep hne
    rw [hnext]
    refine ⟨hvalid, ?_, hz⟩
    show start.addr ≤ c.addr + 2 ^ h
    have hp : 0 < 2 ^ h := Nat.two_pow_pos h
    omega

theorem le_trailingZeroBits_iff (W : Nat) :
    ∀ a k, k ≤ trailingZeroBits W a ↔ (k ≤ W ∧ 2 ^ k ∣ a) := by
  induction W with
  | zero =>
    intro a k
    simp only [trailingZeroBits, Nat.le_zero_eq]
    constructor
    · rintro rfl
      exact ⟨rfl, by simp⟩
    · rintro ⟨h, _⟩
      exact h
  | succ W ih =>
    intro a k
    simp only [trailingZeroBits]
    by_cases ha : a % 2 = 0
    · rw [if_pos ha]
      cases k with
      | zero => simp
      | succ k =>
        have h2 : a = 2 * (a / 2) := by omega
        have hdiv : 2 ^ (k + 1) ∣ a ↔ 2 ^ k ∣ a / 2 := by
          conv_lhs => rw [h2, pow_succ, Nat.mul_comm (2 ^ k) 2]
          exact Nat.mul_dvd_mul_iff_left (by norm_num)
        rw [hdiv, Nat.add_le_add_iff_right, ih (a / 2) k, Nat.add_le_add_iff_right]
    · rw [if_neg ha]
      constructor
      · intro hk
        have : k = 0 := by omega
        subst this
        exact ⟨by omega, by simp⟩
      · rintro ⟨_, hd⟩
        by_contra hk
        have h1 : 1 ≤ k := by omega
        have : 2 ^ 1 ∣ a := Dvd.dvd.trans (pow_dvd_pow 2 h1) hd
        omega

theorem bitLengthAux_le_iff (f : Nat) :
    ∀ x n, x < 2 ^ f → (bitLengthAux f x ≤ n ↔ x < 2 ^ n) := by
  induction f with
  | zero =>
    intro x n hx
    have : x = 0 := by simpa using hx
    subst this
    simp [bitLengthAux]
  | succ f ih =>
    intro x n hx
    simp only [bitLengthAux]
    by_cases h0 : x = 0
    · subst h0
      simp
    · rw [if_neg h0]
      have hx2 : x / 2 < 2 ^ f := by
        rw [pow_succ] at hx
        omega
      cases n with
      | zero =>
        simp only [pow_zero]
        omega
      | succ n =>
        rw [Nat.add_le_add_iff_right, ih (x / 2) n hx2, pow_succ]
        omega

theorem bitLength_le_iff (x n : Nat) : bitLength x ≤ n ↔ x < 2 ^ n :=
  bitLengthAux_le_iff x x n (Nat.lt_two_pow x)

theorem le_floorLog2_iff (x k : Nat) (hx : 1 ≤ x) : k ≤ floorLog2 x ↔ 2 ^ k ≤ x := by
  have h1 : ¬ (bitLength x ≤ k) ↔ ¬ (x < 2 ^ k) := not_congr (bitLength_le_iff x k)
  have h0 : ¬ (bitLength x ≤ 0) := by
    rw [bitLength_le_iff]
    simp only [pow_zero]
    omega
  unfold floorLog2
  constructor
  · intro hk
    have : ¬ (bitLength x ≤ k) := by omega
    have := h1.1 this
    omega
  · intro hk
    have : ¬ (bitLength x ≤ k) := h1.2 (by omega)
    omega

/-- The largest fitting number of host bits in closed form. -/
theorem largestFit_closed {W a e h : Nat} (hfit : LargestFit W a e h) (hae : a ≤ e) :
    h = min (trailingZeroBits W a) (floorLog2 (e - a + 1)) := by
  obtain ⟨hW, hd, hle, hmax⟩ := hfit
  have h1 : h ≤ trailingZeroBits W a := (le_trailingZeroBits_iff W a h).2 ⟨hW, hd⟩
  have h2 : h ≤ floorLog2 (e - a + 1) := (le_floorLog2_iff _ h (by omega)).2 (by omega)
  have h3 : min (trailingZeroBits W a) (floorLog2 (e - a + 1)) ≤ h := by
    obtain ⟨hmW, hmd⟩ := (le_trailingZeroBits_iff W a
      (min (trailingZeroBits W a) (floorLog2 (e - a + 1)))).1 (Nat.min_le_left _ _)
    have hml := (le_floorLog2_iff (e - a + 1)
      (min (trailingZeroBits W a) (floorLog2 (e - a + 1))) (by omega)).1 (Nat.min_le_right _ _)
    exact hmax _ hmW hmd (by omega)
  have := Nat.le_min.2 ⟨h1, h2⟩
  omega

/-- The number of host bits of the prefix `findLargestPrefix` returns on a valid
range, in closed form. -/
theorem findLargestPrefix_closed {start end_ : Addr} (hr : ValidRange start end_) :
    (findLargestPrefix start end_).1.Bits
      = ((start.BitLen - min (trailingZeroBits start.BitLen start.addr)
          (floorLog2 (end_.addr - start.addr + 1)) : Nat) : Int) ∧
    min (trailingZeroBits start.BitLen start.addr) (floorLog2 (end_.addr - start.addr + 1))
      ≤ start.BitLen := by
  obtain ⟨h, hfit, hres⟩ := findLargestPrefix_validRange hr
  obtain ⟨_, _, hle, _⟩ := validRange_tag hr
  have := largestFit_closed hfit hle
  rw [hres, ← this]
  exact ⟨rfl, hfit.1⟩

/-- Maximality without zones: for a valid range of zone-less addresses and every
length `m` with `0 ≤ m ≤ W` such that `start` masked to `m` bits is `start` and the
last address of `start/m` is at most `end_`, the prefix length `findLargestPrefix`
returns is at most `m`; no prefix that starts at `start` and fits within `end_`
covers more addresses. -/
theorem findLargestPrefix_maximal (start end_ : Addr) (hr : ValidRange start end_)
    (m : Nat) (hm : m ≤ start.BitLen)
    (hmask : (PrefixFrom start (m : Int)).Masked.Addr.Compare start = 0)
    (hlast : (getLastAddr (PrefixFrom start (m : Int)).Masked).Compare end_ ≤ 0) :
    (findLargestPrefix start end_).1.Bits ≤ (m : Int) := by
  obtain ⟨h, ⟨hW, hd, hfit, hmax⟩, hres⟩ := findLargestPrefix_validRange hr
  obtain ⟨hp, hz, hle, hlt⟩ := validRange_tag hr
  obtain ⟨_, _, hsin, _, _, _, _, _⟩ := id hr
  rw [hres]
  obtain ⟨s, zs⟩ := start
  obtain ⟨e, ze⟩ := end_
  simp only at hz hp hW hd hfit hle hlt hmax hm
  subst hz
  rw [masked_plain ze hp s m _ rfl hm] at hmask hlast
  simp only [Prefix.Addr] at hmask
  rw [compare_plain_eq ze hp, mask_eq_iff_dvd] at hmask
  rw [(mask_eq_iff_dvd s _).2 hmask, getLastAddr_plain ze hp s m _ rfl hsin hm hmask,
    compare_plain_le ze hp] at hlast
  have hpos : 0 < 2 ^ ((Addr.mk s ze).BitLen - m) := Nat.two_pow_pos _
  have := hmax ((Addr.mk s ze).BitLen - m) (Nat.sub_le _ _) hmask (by omega)
  simp only [Prefix.Bits]
  omega

theorem findLargestPrefix_maximal_witness :
    ValidRange (AddrFrom4 ⟨192, 168, 1, 0⟩) (AddrFrom4 ⟨192, 168, 1, 255⟩) ∧
    24 ≤ (AddrFrom4 ⟨192, 168, 1, 0⟩).BitLen ∧
    (PrefixFrom (AddrFrom4 ⟨192, 168, 1, 0⟩) ((24 : Nat) : Int)).Masked.Addr.Compare
      (AddrFrom4 ⟨192, 168, 1, 0⟩) = 0 ∧
    (getLastAddr (PrefixFrom (AddrFrom4 ⟨192, 168, 1, 0⟩) ((24 : Nat) : Int)).Masked).Compare
      (AddrFrom4 ⟨192, 168, 1, 255⟩) ≤ 0 ∧
    (findLargestPrefix (AddrFrom4 ⟨192, 168, 1, 0⟩) (AddrFrom4 ⟨192, 168, 1, 255⟩)).1.Bits
      ≤ ((24 : Nat) : Int) :=
  ⟨by decide, by decide, by decide, by decide,
    findLargestPrefix_maximal _ _ (by decide) 24 (by decide) (by decide) (by decide)⟩

theorem plainTag_bitLen (ip : Addr) (hp : PlainTag ip.z) : ip.BitLen = 32 ∨ ip.BitLen = 128 := by
  obtain ⟨a, z⟩ := ip
  rcases hp with h | h <;> simp only at h <;> subst h
  · exact Or.inl rfl
  · exact Or.inr rfl

/-- Length bound without zones: for a valid range of zone-less addresses,
`ipRangeToCIDRs` returns at most `2 * W - 1` prefixes, `W` the bit width of the
family: at most 63 for IPv4 and at most 255 for IPv6. -/
theorem ipRangeToCIDRs_length_le (start end_ : Addr) (hr : ValidRange start end_) :
    ∃ prefixes, Returns start end_ (prefixes, none) ∧
      prefixes.length ≤ 2 * start.BitLen - 1 ∧
      (start.Is4 = true → prefixes.length ≤ 63) ∧
      (start.Is6 = true → prefixes.length ≤ 255) := by
  obtain ⟨L, hL, hret⟩ := returns_of_greedy start end_ hr
  obtain ⟨hp, _, _, hlt⟩ := validRange_tag hr
  have hW := plainTag_bitLen start hp
  have hlen := greedy_length hL hlt 0 (by omega) (one_dvd _)
  refine ⟨_, hret, by simpa using hlen, ?_, ?_⟩
  · intro h4
    have : start.BitLen = 32 := by
      obtain ⟨a, z⟩ := start
      cases z <;> simp [Addr.Is4] at h4
      rfl
    rw [this] at hlen
    simpa using hlen
  · intro h6
    have : start.BitLen = 128 := by
      obtain ⟨a, z⟩ := start
      cases z <;> simp [Addr.Is6] at h6
      rfl
    rw [this] at hlen
    simpa using hlen

theorem ipRangeToCIDRs_length_le_witness :
    ValidRange (AddrFrom4 ⟨0, 0, 0, 1⟩) (AddrFrom4 ⟨255, 255, 255, 254⟩) ∧
    ∃ prefixes, Returns (AddrFrom4 ⟨0, 0, 0, 1⟩) (AddrFrom4 ⟨255, 255, 255, 254⟩)
        (prefixes, none) ∧
      prefixes.length ≤ 2 * (AddrFrom4 ⟨0, 0, 0, 1⟩).BitLen - 1 ∧
      ((AddrFrom4 ⟨0, 0, 0, 1⟩).Is4 = true → prefixes.length ≤ 63) ∧
      ((AddrFrom4 ⟨0, 0, 0, 1⟩).Is6 = true → prefixes.length ≤ 255) :=
  ⟨by decide, ipRangeToCIDRs_length_le _ _ (by decide)⟩

/-- Shape without zones: for a valid range of zone-less addresses the prefix lengths
of the returned list form a strictly decreasing run followed by a strictly
increasing run, so that no prefix length occurs more than twice. -/
theorem ipRangeToCIDRs_lengths_shape (start end_ : Addr) (hr : ValidRange start end_) :
    ∃ prefixes, Returns start end_ (prefixes, none) ∧
      (∃ D I, prefixes.map Prefix.Bits = D ++ I ∧
        D.Pairwise (fun x y => x > y) ∧ I.Pairwise (fun x y => x < y)) ∧
      ∀ n : Int, (prefixes.map Prefix.Bits).count n ≤ 2 := by
  obtain ⟨L, hL, hret⟩ := returns_of_greedy start end_ hr
  obtain ⟨_, _, _, hlt⟩ := validRange_tag hr
  obtain ⟨L1, L2, hsplit, h1, _, h2⟩ := greedy_shape hL hlt 0 (one_dvd _)
  have hW : ∀ b ∈ L, b.2 ≤ start.BitLen := fun b hb => (greedy_blocks hL b hb).1
  have hbits : ∀ l : List (Nat × Nat),
      (l.map (blockPrefix start.z start.BitLen)).map Prefix.Bits
        = l.map (fun b => ((start.BitLen - b.2 : Nat) : Int)) := by
    intro l
    simp [blockPrefix, Prefix.Bits, Function.comp_def]
  have hD : (L1.map (fun b => ((start.BitLen - b.2 : Nat) : Int))).Pairwise
      (fun x y => x > y) := by
    rw [List.pairwise_map] at h1 ⊢
    refine List.Pairwise.imp_of_mem ?_ h1
    intro a b ha hb hab
    have := hW a (by rw [hsplit]; exact List.mem_append_left _ ha)
    have := hW b (by rw [hsplit]; exact List.mem_append_left _ hb)
    omega
  have hI : (L2.map (fun b => ((start.BitLen - b.2 : Nat) : Int))).Pairwise
      (fun x y => x < y) := by
    rw [List.pairwise_map] at h2 ⊢
    refine List.Pairwise.imp_of_mem ?_ h2
    intro a b ha hb hab
    have := hW a (by rw [hsplit]; exact List.mem_append_right _ ha)
    have := hW b (by rw [hsplit]; exact List.mem_append_right _ hb)
    omega
  have hsp : (L.map (blockPrefix start.z start.BitLen)).map Prefix.Bits
      = L1.map (fun b => ((start.BitLen - b.2 : Nat) : Int))
        ++ L2.map (fun b => ((start.BitLen - b.2 : Nat) : Int)) := by
    rw [hbits, hsplit, List.map_append]
  refine ⟨_, hret, ⟨_, _, hsp, hD, hI⟩, ?_⟩
  intro n
  rw [hsp, List.count_append]
  have hDn : (L1.map (fun b => ((start.BitLen - b.2 : Nat) : Int))).Nodup :=
    List.Pairwise.imp (fun h => ne_of_gt h) hD
  have hIn : (L2.map (fun b => ((start.BitLen - b.2 : Nat) : Int))).Nodup :=
    List.Pairwise.imp (fun h => ne_of_lt h) hI
  have := List.nodup_iff_count_le_one.1 hDn n
  have := List.nodup_iff_count_le_one.1 hIn n
  omega

theorem ipRangeToCIDRs_lengths_shape_witness :
    ValidRange (AddrFrom4 ⟨10, 0, 0, 1⟩) (AddrFrom4 ⟨10, 0, 1, 254⟩) ∧
    ∃ prefixes, Returns (AddrFrom4 ⟨10, 0, 0, 1⟩) (AddrFrom4 ⟨10, 0, 1, 254⟩)
        (prefixes, none) ∧
      (∃ D I, prefixes.map Prefix.Bits = D ++ I ∧
        D.Pairwise (fun x y => x > y) ∧ I.Pairwise (fun x y => x < y)) ∧
      ∀ n : Int, (prefixes.map Prefix.Bits).count n ≤ 2 :=
  ⟨by decide, ipRangeToCIDRs_lengths_shape _ _ (by decide)⟩

/-- Termination without zones: for a valid range of zone-less addresses the driving
loop of `ipRangeToCIDRs` terminates, within `end_ - start + 1` iterations.  At every
position `curr` the loop takes, it breaks exactly when the last address of the
emitted prefix is `end_`; otherwise the next position is strictly greater than
`curr`, so `end_ - curr` strictly decreases. -/
theorem ipRangeToCIDRs_terminates (start end_ : Addr) (hr : ValidRange start end_) :
    (∃ prefixes, ∀ fuel, end_.addr - start.addr < fuel →
      ipRangeToCIDRs fuel start end_ = some (prefixes, none)) ∧
    (∀ curr, ipRangeToCIDRs.Position start end_ curr →
      (∀ fuel acc, ipRangeToCIDRs.loop end_ (fuel + 1) curr acc
        = if (findLargestPrefix curr end_).2.Compare end_ = 0
          then some (acc ++ [(findLargestPrefix curr end_).1])
          else ipRangeToCIDRs.loop end_ fuel (findLargestPrefix curr end_).2.Next
            (acc ++ [(findLargestPrefix curr end_).1])) ∧
      ((findLargestPrefix curr end_).2.Compare end_ = 0 ↔
        getLastAddr (findLargestPrefix curr end_).1 = end_) ∧
      ((findLargestPrefix curr end_).2.Compare end_ ≠ 0 →
        curr.Compare (findLargestPrefix curr end_).2.Next < 0 ∧
        end_.addr - (findLargestPrefix curr end_).2.Next.addr < end_.addr - curr.addr)) := by
  constructor
  · obtain ⟨L, _, hrun⟩ := ipRangeToCIDRs_greedy start end_ hr
    exact ⟨_, hrun⟩
  · intro curr hpos
    obtain ⟨hv, _, _⟩ := position_valid hr curr hpos
    obtain ⟨h, hfit, hres, hbreak, hstep⟩ := loop_step hv
    obtain ⟨hp, hz, hle, hlt⟩ := validRange_tag hv
    obtain ⟨_, _, hsin, _, _, _, _, _⟩ := id hv
    obtain ⟨hW, hd, hfit2, _⟩ := id hfit
    have hp2 : 0 < 2 ^ h := Nat.two_pow_pos h
    have hh : curr.BitLen - (curr.BitLen - h) = h := by omega
    have hlast : getLastAddr (findLargestPrefix curr end_).1
        = ⟨curr.addr + 2 ^ h - 1, curr.z⟩ := by
      rw [hres]
      simp only
      have := getLastAddr_plain curr.z hp curr.addr (curr.BitLen - h) curr.BitLen rfl hsin
        (Nat.sub_le _ _) (by rw [hh]; exact hd)
      rw [hh] at this
      exact this
    refine ⟨fun fuel acc => rfl, ?_, ?_⟩
    · rw [hbreak, hlast]
      constructor
      · intro he
        rw [he, ← hz]
      · intro he
        rw [← he]
    · intro hne
      obtain ⟨hnext, hnx, _⟩ := hstep hne
      rw [hnx]
      refine ⟨?_, ?_⟩
      · have := (compare_plain_lt curr.z hp curr.addr (curr.addr + 2 ^ h)).2 (by omega)
        exact this
      · simp only
        omega

theorem ipRangeToCIDRs_terminates_witness :
    ValidRange (AddrFrom4 ⟨192, 168, 1, 254⟩) (AddrFrom4 ⟨192, 168, 2, 1⟩) ∧
    (findLargestPrefix (AddrFrom4 ⟨192, 168, 1, 254⟩) (AddrFrom4 ⟨192, 168, 2, 1⟩)).2.Compare
      (AddrFrom4 ⟨192, 168, 2, 1⟩) ≠ 0 ∧
    (AddrFrom4 ⟨192, 168, 1, 254⟩).Compare
      (findLargestPrefix (AddrFrom4 ⟨192, 168, 1, 254⟩) (AddrFrom4 ⟨192, 168, 2, 1⟩)).2.Next < 0 ∧
    (AddrFrom4 ⟨192, 168, 2, 1⟩).addr
        - (findLargestPrefix (AddrFrom4 ⟨192, 168, 1, 254⟩)
            (AddrFrom4 ⟨192, 168, 2, 1⟩)).2.Next.addr
      < (AddrFrom4 ⟨192, 168, 2, 1⟩).addr - (AddrFrom4 ⟨192, 168, 1, 254⟩).addr :=
  ⟨by decide, by decide,
    ((ipRangeToCIDRs_terminates _ _ (by decide)).2 _ ipRangeToCIDRs.Position.first).2.2
      (by decide)⟩

/-- No wrap without zones: at every position `curr` the loop takes on a valid range of
zone-less addresses, `start ≤ curr ≤ end_`, and the last address `L` found satisfies
`curr ≤ L ≤ end_`; whenever the loop continues, `L < end_`, so `L` is not the
maximum address of its family and `L.Next()` is `L + 1`, a valid address. -/
theorem ipRangeToCIDRs_no_wrap (start end_ : Addr) (hr : ValidRange start end_) :
    ∀ curr, ipRangeToCIDRs.Position start end_ curr →
      start.Compare curr ≤ 0 ∧ curr.Compare end_ ≤ 0 ∧
      curr.Compare (findLargestPrefix curr end_).2 ≤ 0 ∧
      (findLargestPrefix curr end_).2.Compare end_ ≤ 0 ∧
      ((findLargestPrefix curr end_).2.Compare end_ ≠ 0 →
        (findLargestPrefix curr end_).2.Compare end_ < 0 ∧
        (findLargestPrefix curr end_).2.addr + 1 < 2 ^ (findLargestPrefix curr end_).2.BitLen ∧
        (findLargestPrefix curr end_).2.Next
          = ⟨(findLargestPrefix curr end_).2.addr + 1, (findLargestPrefix curr end_).2.z⟩ ∧
        (findLargestPrefix curr end_).2.Next.IsValid = true) := by
  intro curr hpos
  obtain ⟨hv, hsc, hzc⟩ := position_valid hr curr hpos
  obtain ⟨h, hfit, hres, hbreak, hstep⟩ := loop_step hv
  obtain ⟨hp, hz, hle, hlt⟩ := validRange_tag hv
  obtain ⟨hcv, _, _, _, _, _, _, hord⟩ := id hv
  obtain ⟨hW, hd, hfit2, _⟩ := id hfit
  have hp2 : 0 < 2 ^ h := Nat.two_pow_pos h
  have hstart : start.Compare curr ≤ 0 := by
    obtain ⟨s, zs⟩ := start
    obtain ⟨c, zc⟩ := curr
    simp only at hzc hsc hp
    subst hzc
    exact (compare_plain_le _ hp _ _).2 hsc
  have hcl : curr.Compare (findLargestPrefix curr end_).2 ≤ 0 := by
    rw [hres]
    exact (compare_plain_le curr.z hp curr.addr (curr.addr + 2 ^ h - 1)).2 (by omega)
  have hlend : ∀ x, Addr.Compare ⟨x, curr.z⟩ end_ = Addr.Compare ⟨x, curr.z⟩ ⟨end_.addr, curr.z⟩ := by
    intro x
    rw [← hz]
  have hle2 : (findLargestPrefix curr end_).2.Compare end_ ≤ 0 := by
    rw [hres]
    simp only
    rw [hlend]
    exact (compare_plain_le curr.z hp _ _).2 (by omega)
  refine ⟨hstart, hord, hcl, hle2, ?_⟩
  intro hne
  obtain ⟨hnext, hnx, hvn⟩ := hstep hne
  refine ⟨by omega, ?_, ?_, ?_⟩
  · rw [hres]
    show curr.addr + 2 ^ h - 1 + 1 < 2 ^ curr.BitLen
    omega
  · rw [hnx, hres]
    simp only
    congr 1
    omega
  · rw [hnx]
    exact hcv

theorem ipRangeToCIDRs_no_wrap_witness :
    ValidRange (AddrFrom4 ⟨192, 168, 1, 254⟩) (AddrFrom4 ⟨192, 168, 2, 1⟩) ∧
    (findLargestPrefix (AddrFrom4 ⟨192, 168, 1, 254⟩) (AddrFrom4 ⟨192, 168, 2, 1⟩)).2.Compare
      (AddrFrom4 ⟨192, 168, 2, 1⟩) ≠ 0 ∧
    (AddrFrom4 ⟨192, 168, 1, 254⟩).Compare
      (findLargestPrefix (AddrFrom4 ⟨192, 168, 1, 254⟩) (AddrFrom4 ⟨192, 168, 2, 1⟩)).2 ≤ 0 ∧
    (findLargestPrefix (AddrFrom4 ⟨192, 168, 1, 254⟩) (AddrFrom4 ⟨192, 168, 2, 1⟩)).2.Compare
      (AddrFrom4 ⟨192, 168, 2, 1⟩) < 0 ∧
    (findLargestPrefix (AddrFrom4 ⟨192, 168, 1, 254⟩) (AddrFrom4 ⟨192, 168, 2, 1⟩)).2.Next.IsValid
      = true :=
  ⟨by decide, by decide,
    (ipRangeToCIDRs_no_wrap (AddrFrom4 ⟨192, 168, 1, 254⟩) (AddrFrom4 ⟨192, 168, 2, 1⟩)
      (by decide) _ ipRangeToCIDRs.Position.first).2.2.1,
    ((ipRangeToCIDRs_no_wrap (AddrFrom4 ⟨192, 168, 1, 254⟩) (AddrFrom4 ⟨192, 168, 2, 1⟩)
      (by decide) _ ipRangeToCIDRs.Position.first).2.2.2.2 (by decide)).1,
    ((ipRangeToCIDRs_no_wrap (AddrFrom4 ⟨192, 168, 1, 254⟩) (AddrFrom4 ⟨192, 168, 2, 1⟩)
      (by decide) _ ipRangeToCIDRs.Position.first).2.2.2.2 (by decide)).2.2.2⟩

/-- C17 (as stated, refuted). On 192.168.1.0 to 192.168.1.255 the scan returns the
prefix length 24, while the closed form as the specification writes it,
`min(trailing-zero-bit-count(start), W - bit-length(end - start + 1))`, is
`min(8, 32 - 9) = 8`. -/
theorem findLargestPrefix_spec_formula_fails :
    ValidRange (AddrFrom4 ⟨192, 168, 1, 0⟩) (AddrFrom4 ⟨192, 168, 1, 255⟩) ∧
    (findLargestPrefix (AddrFrom4 ⟨192, 168, 1, 0⟩) (AddrFrom4 ⟨192, 168, 1, 255⟩)).1.Bits = 24 ∧
    min (trailingZeroBits 32 (AddrFrom4 ⟨192, 168, 1, 0⟩).addr)
      (32 - bitLength ((AddrFrom4 ⟨192, 168, 1, 255⟩).addr
        - (AddrFrom4 ⟨192, 168, 1, 0⟩).addr + 1)) = 8 ∧
    (findLargestPrefix (AddrFrom4 ⟨192, 168, 1, 0⟩) (AddrFrom4 ⟨192, 168, 1, 255⟩)).1.Bits
      ≠ ((min (trailingZeroBits 32 (AddrFrom4 ⟨192, 168, 1, 0⟩).addr)
          (32 - bitLength ((AddrFrom4 ⟨192, 168, 1, 255⟩).addr
            - (AddrFrom4 ⟨192, 168, 1, 0⟩).addr + 1)) : Nat) : Int) := by
  decide

/-- C17 (amended). For every pair of valid addresses of one family without an IPv6
zone and with `start ≤ end_`, the prefix length `findLargestPrefix` returns is
`W - min(trailing-zero-bit-count(start), bit-length(end - start + 1) - 1)`, with `W`
the bit width of the family and the trailing-zero count of `0` equal to `W`. -/
theorem findLargestPrefix_closed_form (start end_ : Addr) (hr : ValidRange start end_) :
    (findLargestPrefix start end_).1.Bits
      = ((start.BitLen - min (trailingZeroBits start.BitLen start.addr)
          (bitLength (end_.addr - start.addr + 1) - 1) : Nat) : Int) :=
  (findLargestPrefix_closed hr).1

theorem findLargestPrefix_closed_form_witness :
    ValidRange (AddrFrom4 ⟨192, 168, 1, 0⟩) (AddrFrom4 ⟨192, 168, 1, 255⟩) ∧
    (findLargestPrefix (AddrFrom4 ⟨192, 168, 1, 0⟩) (AddrFrom4 ⟨192, 168, 1, 255⟩)).1.Bits
      = (((AddrFrom4 ⟨192, 168, 1, 0⟩).BitLen
          - min (trailingZeroBits (AddrFrom4 ⟨192, 168, 1, 0⟩).BitLen
              (AddrFrom4 ⟨192, 168, 1, 0⟩).addr)
            (bitLength ((AddrFrom4 ⟨192, 168, 1, 255⟩).addr
              - (AddrFrom4 ⟨192, 168, 1, 0⟩).addr + 1) - 1) : Nat) : Int) :=
  ⟨by decide, findLargestPrefix_closed_form _ _ (by decide)⟩

/-- What the 32-bit branch computes: an integer addition of the host mask modulo
`2^32`.  For every IPv4 address `a` and every length `n ≤ 32`, `getLastAddr` returns
`(a + (2^(32-n) - 1)) mod 2^32`.  When the low `32 - n` bits of `a` are zero this is
`a ||| (2^(32-n) - 1)`, the value the 128-bit branch computes byte by byte for every
address. -/
theorem getLastAddr_ip4_add (a n : Nat) (ha : a < 2 ^ 32) (hn : n ≤ 32) :
    getLastAddr ⟨⟨a, Z.z4⟩, (n : Int)⟩ = ⟨(a + (2 ^ (32 - n) - 1)) % 2 ^ 32, Z.z4⟩ ∧
    (a % 2 ^ (32 - n) = 0 →
      getLastAddr ⟨⟨a, Z.z4⟩, (n : Int)⟩ = ⟨a ||| (2 ^ (32 - n) - 1), Z.z4⟩) ∧
    (∀ b m : Nat, b < 2 ^ 128 → m ≤ 128 →
      getLastAddr ⟨⟨b, Z.z6 ""⟩, (m : Int)⟩ = ⟨b ||| (2 ^ (128 - m) - 1), Z.z6 ""⟩) := by
  refine ⟨getLastAddr_ip4 a n ha hn, ?_, fun b m hb hm => getLastAddr_ip6 b m hb hm⟩
  intro hal
  have hd : 2 ^ (32 - n) ∣ a := Nat.dvd_of_mod_eq_zero hal
  have hle := aligned_add_le a (32 - n) 32 (Nat.sub_le _ _) ha hd
  have hp : 0 < 2 ^ (32 - n) := Nat.two_pow_pos _
  rw [getLastAddr_ip4 a n ha hn, or_mask_aligned a _ hd, Nat.mod_eq_of_lt (by omega)]
  congr 1
  omega

theorem getLastAddr_ip4_add_witness :
    (3232235876 : Nat) < 2 ^ 32 ∧ (30 : Nat) ≤ 32 ∧
    getLastAddr ⟨⟨3232235876, Z.z4⟩, ((30 : Nat) : Int)⟩
      = ⟨(3232235876 + (2 ^ (32 - 30) - 1)) % 2 ^ 32, Z.z4⟩ :=
  ⟨by decide, by decide, (getLastAddr_ip4_add 3232235876 30 (by decide) (by decide)).1⟩

/-- Host bits without zones: for a valid range of zone-less addresses the number of
host bits of the prefix `findLargestPrefix` returns, `W` minus its prefix length, is
`min(tz(start), floor(log2(end - start + 1)))`, where `tz(start)` is the number of
trailing zero bits of `start` and `tz(0) = W`. -/
theorem findLargestPrefix_hostBits (start end_ : Addr) (hr : ValidRange start end_) :
    (start.BitLen : Int) - (findLargestPrefix start end_).1.Bits
      = ((min (trailingZeroBits start.BitLen start.addr)
          (floorLog2 (end_.addr - start.addr + 1)) : Nat) : Int) := by
  obtain ⟨h1, h2⟩ := findLargestPrefix_closed hr
  rw [h1]
  omega

theorem findLargestPrefix_hostBits_witness :
    ValidRange (AddrFrom4 ⟨10, 0, 0, 0⟩) (AddrFrom4 ⟨10, 0, 1, 254⟩) ∧
    ((AddrFrom4 ⟨10, 0, 0, 0⟩).BitLen : Int)
        - (findLargestPrefix (AddrFrom4 ⟨10, 0, 0, 0⟩) (AddrFrom4 ⟨10, 0, 1, 254⟩)).1.Bits
      = ((min (trailingZeroBits (AddrFrom4 ⟨10, 0, 0, 0⟩).BitLen (AddrFrom4 ⟨10, 0, 0, 0⟩).addr)
          (floorLog2 ((AddrFrom4 ⟨10, 0, 1, 254⟩).addr
            - (AddrFrom4 ⟨10, 0, 0, 0⟩).addr + 1)) : Nat) : Int) :=
  ⟨by decide, findLargestPrefix_hostBits _ _ (by decide)⟩

/-! ## Endpoints that carry an IPv6 zone -/

theorem prefixFrom_zoned (a : Nat) (zone : String) :
    PrefixFrom ⟨a, Z.z6 zone⟩ (128 : Int) = ⟨⟨a, Z.z6 ""⟩, 128⟩ := by
  simp [PrefixFrom, Addr.withoutZone, Addr.IsValid, Addr.BitLen]

theorem compare_same_zone (a e : Nat) (zone : String) :
    (Addr.Compare ⟨a, Z.z6 zone⟩ ⟨e, Z.z6 zone⟩ = 0 ↔ a = e) ∧
    (Addr.Compare ⟨a, Z.z6 zone⟩ ⟨e, Z.z6 zone⟩ ≤ 0 ↔ a ≤ e) := by
  simp only [Addr.Compare, Addr.BitLen, Addr.Is6, Addr.Zone, lt_irrefl, if_false, if_true,
    gt_iff_lt]
  constructor <;> split_ifs <;> simp <;> omega

theorem next_zoned (a : Nat) (zone : String) (h : a + 1 < 2 ^ 128) :
    Addr.Next ⟨a, Z.z6 zone⟩ = ⟨a + 1, Z.z6 zone⟩ := by
  have h1 : (a + 1) % 2 ^ 128 = a + 1 := Nat.mod_eq_of_lt h
  have h2 : ¬ ((a + 1) % 2 ^ 128 = 0) := by omega
  simp only [Addr.Next]
  rw [if_neg h2, h1]

/-- On endpoints that carry the same non-empty zone the driving loop advances one
address at a time and appends the host prefix of every address up to `e`. -/
theorem ipRangeToCIDRs_loop_zoned (zone : String) (hzone : zone ≠ "") (e : Nat)
    (he : e < 2 ^ 128) :
    ∀ (n a : Nat) (acc : List Prefix), a + n = e →
      ipRangeToCIDRs.loop ⟨e, Z.z6 zone⟩ (n + 1) ⟨a, Z.z6 zone⟩ acc
        = some (acc ++ (List.range' a (n + 1)).map (fun v => ⟨⟨v, Z.z6 ""⟩, 128⟩)) := by
  intro n
  induction n with
  | zero =>
    intro a acc hae
    have hae2 : a = e := by omega
    subst hae2
    simp [ipRangeToCIDRs.loop, findLargestPrefix_zoned a zone hzone, prefixFrom_zoned,
      compare_self]
  | succ n ih =>
    intro a acc hae
    have hne : ¬ (Addr.Compare ⟨a, Z.z6 zone⟩ ⟨e, Z.z6 zone⟩ = 0) := by
      rw [(compare_same_zone a e zone).1]
      omega
    rw [ipRangeToCIDRs.loop]
    simp only [findLargestPrefix_zoned a zone hzone, Nat.cast_ofNat, prefixFrom_zoned]
    rw [if_neg hne, next_zoned a zone (by omega), ih (a + 1) _ (by omega)]
    simp [List.range'_succ]

/-- The result of `ipRangeToCIDRs` on endpoints carrying the same non-empty zone: one
host prefix for each address of the range. -/
theorem ipRangeToCIDRs_zoned_eval (a e : Nat) (zone : String) (hzone : zone ≠ "")
    (hae : a ≤ e) (he : e < 2 ^ 128) :
    ipRangeToCIDRs (e - a + 1) ⟨a, Z.z6 zone⟩ ⟨e, Z.z6 zone⟩
      = some ((List.range' a (e - a + 1)).map (fun v => ⟨⟨v, Z.z6 ""⟩, 128⟩), none) := by
  have hc : ¬ (Addr.Compare ⟨a, Z.z6 zone⟩ ⟨e, Z.z6 zone⟩ > 0) := by
    have := (compare_same_zone a e zone).2.2 hae
    omega
  unfold ipRangeToCIDRs
  rw [if_neg (by simp [Addr.IsValid]), if_neg (by simp [Addr.IsValid]),
    if_neg (by simp [Addr.Is4]), if_neg hc,
    ipRangeToCIDRs_loop_zoned zone hzone e he (e - a) a [] (by omega)]
  simp

/-- Without a zone, an even IPv6 address and its successor decompose to the one
prefix of length 127 that holds both. -/
theorem ipRangeToCIDRs_pair6 (a : Nat) (heven : a % 2 = 0) (ha : a + 1 < 2 ^ 128) :
    Returns ⟨a, Z.z6 ""⟩ ⟨a + 1, Z.z6 ""⟩ ([⟨⟨a, Z.z6 ""⟩, 127⟩], none) := by
  have hr : ValidRange ⟨a, Z.z6 ""⟩ ⟨a + 1, Z.z6 ""⟩ := by
    refine ⟨rfl, rfl, ?_, ?_, rfl, rfl, rfl, ?_⟩
    · show a < 2 ^ 128
      omega
    · show a + 1 < 2 ^ 128
      exact ha
    · rw [compare_plain_le (Z.z6 "") (Or.inr rfl)]
      omega
  obtain ⟨L, hL, hret⟩ := returns_of_greedy _ _ hr
  have hex := greedy_exact hL 1 (by simp [Addr.BitLen])
    (by simpa using Nat.dvd_of_mod_eq_zero heven) (by simp)
  subst hex
  exact hret

theorem compare_zone_ne (x : Addr) (e : Nat) (zs ze : String)
    (hx : x.z = Z.z0 ∨ x.z = Z.z6 zs) (hne : zs ≠ ze) :
    x.Compare ⟨e, Z.z6 ze⟩ ≠ 0 := by
  obtain ⟨v, t⟩ := x
  simp only at hx
  rcases hx with rfl | rfl
  · simp [Addr.Compare, Addr.BitLen]
  · rcases lt_or_gt_of_ne hne with hlt | hgt
    · simp only [Addr.Compare, Addr.BitLen, Addr.Is6, Addr.Zone, lt_irrefl, if_false, if_true,
        gt_iff_lt, hlt]
      split_ifs <;> simp
    · have hnlt : ¬ (zs < ze) := not_lt_of_gt hgt
      simp only [Addr.Compare, Addr.BitLen, Addr.Is6, Addr.Zone, lt_irrefl, if_false, if_true,
        gt_iff_lt, hnlt, hgt]
      split_ifs <;> simp

theorem getLastAddr_tag (p : Prefix) (hp : p.ip.z = Z.z6 "") :
    (getLastAddr p).z = Z.z6 "" := by
  unfold getLastAddr
  simp only [Prefix.Addr]
  split_ifs with h1 h2
  · exact hp
  · simp [Addr.Is4, hp] at h2
  · rfl

theorem findLargestPrefix_loop_tag (a : Nat) (end_ : Addr) :
    ∀ (n : Nat) (lastFit : Prefix) (lastEnd : Addr), n ≤ 128 → lastEnd.z = Z.z6 "" →
      (findLargestPrefix.loop ⟨a, Z.z6 ""⟩ end_ n lastFit lastEnd).2.z = Z.z6 "" := by
  intro n
  induction n with
  | zero =>
    intro lastFit lastEnd _ h
    simpa [findLargestPrefix.loop] using h
  | succ k ih =>
    intro lastFit lastEnd hk h
    rw [findLargestPrefix.loop]
    simp only [masked_zoned a k "" (by omega)]
    split_ifs
    · exact h
    · exact h
    · exact ih _ _ (by omega) (getLastAddr_tag _ rfl)

/-- The last address `findLargestPrefix` returns has the tag of `curr`, for the zero
address and for an IPv6 address with or without zone. -/
theorem findLargestPrefix_tag (curr end_ : Addr) (zs : String)
    (h : curr.z = Z.z0 ∨ curr.z = Z.z6 zs) :
    (findLargestPrefix curr end_).2.z = Z.z0 ∨ (findLargestPrefix curr end_).2.z = Z.z6 zs := by
  obtain ⟨v, t⟩ := curr
  simp only at h
  rcases h with rfl | rfl
  · left
    simp [findLargestPrefix, Addr.BitLen, findLargestPrefix.loop]
  · right
    by_cases hz : zs = ""
    · subst hz
      have key := findLargestPrefix_loop_tag v end_ 128
        (PrefixFrom ⟨v, Z.z6 ""⟩ ((128 : Nat) : Int)) ⟨v, Z.z6 ""⟩ (le_refl _) rfl
      unfold findLargestPrefix
      simp only [Addr.BitLen]
      exact key
    · rw [findLargestPrefix_zoned v zs hz]

theorem next_tag (x : Addr) (zs : String) (h : x.z = Z.z0 ∨ x.z = Z.z6 zs) :
    x.Next.z = Z.z0 ∨ x.Next.z = Z.z6 zs := by
  obtain ⟨v, t⟩ := x
  simp only at h
  rcases h with rfl | rfl
  · simp only [Addr.Next]
    split_ifs
    · left; rfl
    · left; rfl
  · simp only [Addr.Next]
    split_ifs
    · left; rfl
    · right; rfl

/-- When the position of the driving loop is the zero address or an IPv6 address
whose zone differs from the zone of `end`, the loop never reaches its `break`. -/
theorem ipRangeToCIDRs_loop_zone_mismatch (e : Nat) (zs ze : String) (hne : zs ≠ ze) :
    ∀ (fuel : Nat) (curr : Addr) (acc : List Prefix), (curr.z = Z.z0 ∨ curr.z = Z.z6 zs) →
      ipRangeToCIDRs.loop ⟨e, Z.z6 ze⟩ fuel curr acc = none := by
  intro fuel
  induction fuel with
  | zero =>
    intro curr acc _
    rfl
  | succ f ih =>
    intro curr acc h
    have ht := findLargestPrefix_tag curr ⟨e, Z.z6 ze⟩ zs h
    rw [ipRangeToCIDRs.loop]
    rw [if_neg (compare_zone_ne _ e zs ze ht hne)]
    exact ih _ _ (next_tag _ zs ht)

/-- Two IPv6 endpoints with different zones: `ipRangeToCIDRs` either reports
`start > end` or, when the checks pass, does not return for any number of loop
iterations. -/
theorem ipRangeToCIDRs_zone_mismatch (a e : Nat) (zs ze : String) (hne : zs ≠ ze)
    (fuel : Nat) :
    ipRangeToCIDRs fuel ⟨a, Z.z6 zs⟩ ⟨e, Z.z6 ze⟩
      = if Addr.Compare ⟨a, Z.z6 zs⟩ ⟨e, Z.z6 ze⟩ > 0 then
          some ([], some (RangeError.startGreaterThanEnd ⟨a, Z.z6 zs⟩ ⟨e, Z.z6 ze⟩))
        else none := by
  unfold ipRangeToCIDRs
  rw [if_neg (by simp [Addr.IsValid]), if_neg (by simp [Addr.IsValid]),
    if_neg (by simp [Addr.Is4])]
  split_ifs
  · rfl
  · rw [ipRangeToCIDRs_loop_zone_mismatch e zs ze hne fuel _ [] (Or.inr rfl)]

/-- An address without zone is not greater than the same address with a zone. -/
theorem compare_stripped_le (a : Nat) (zone : String) :
    Addr.Compare ⟨a, Z.z6 ""⟩ ⟨a, Z.z6 zone⟩ ≤ 0 := by
  by_cases hz : zone = ""
  · subst hz
    rw [compare_self]
  · have hlt := zone_empty_lt zone hz
    simp [Addr.Compare, Addr.BitLen, Addr.Is6, Addr.Zone, hlt]

/-- The call returns at most one result. -/
theorem returns_unique (start end_ : Addr) (r1 r2 : List Prefix × Option RangeError)
    (h1 : Returns start end_ r1) (h2 : Returns start end_ r2) : r1 = r2 := by
  obtain ⟨n1, hn1⟩ := h1
  obtain ⟨n2, hn2⟩ := h2
  have e1 := hn1 (max n1 n2) (le_max_left _ _)
  have e2 := hn2 (max n1 n2) (le_max_right _ _)
  rw [e1] at e2
  exact Option.some.inj e2

/-- A call that has no result for any number of iterations does not return. -/
theorem not_returns_of_none (start end_ : Addr)
    (h : ∀ fuel, ipRangeToCIDRs fuel start end_ = none) :
    ¬ ∃ r, Returns start end_ r := by
  rintro ⟨r, n, hn⟩
  have := hn n (le_refl _)
  rw [h n] at this
  exact Option.noConfusion this

theorem compare_gt_of_addr_gt (x e : Nat) (zx ze : String) (h : e < x) :
    Addr.Compare ⟨x, Z.z6 zx⟩ ⟨e, Z.z6 ze⟩ > 0 := by
  have h1 : ¬ (x < e) := by omega
  simp [Addr.Compare, Addr.BitLen, h1, h]

/-- Once the position of the loop is a zone-less IPv6 address above the value of `end`,
the scan returns the host prefix of the position and the position itself. -/
theorem findLargestPrefix_past (v e : Nat) (ze : String) (hv : e < v) (hlt : v < 2 ^ 128) :
    findLargestPrefix ⟨v, Z.z6 ""⟩ ⟨e, Z.z6 ze⟩
      = (PrefixFrom ⟨v, Z.z6 ""⟩ ((128 : Nat) : Int), ⟨v, Z.z6 ""⟩) := by
  have hmask := masked_zoned v 127 "" (by omega)
  unfold findLargestPrefix
  show findLargestPrefix.loop _ _ (127 + 1) _ _ = _
  rw [findLargestPrefix.loop]
  simp only [hmask, Prefix.Addr]
  split_ifs with h1 h2
  · rfl
  · rfl
  · exfalso
    have heq : v / 2 ^ (128 - 127) * 2 ^ (128 - 127) = v := by
      have := (compare_plain_eq (Z.z6 "") (Or.inr rfl) _ v).1 (not_not.1 h1)
      exact this
    have hlast := getLastAddr_ip6 (v / 2 ^ (128 - 127) * 2 ^ (128 - 127)) 127
      (by rw [heq]; exact hlt) (by omega)
    have hd : 2 ^ (128 - 127) ∣ v := Dvd.intro_left _ heq
    apply h2
    rw [hlast, heq, or_mask_aligned v (128 - 127) hd]
    apply compare_gt_of_addr_gt
    have hp : 0 < 2 ^ (128 - 127) := Nat.two_pow_pos _
    omega

/-- On `::1` to `::1%eth0` the loop takes every zone-less position from `::2` on. -/
theorem position_mismatch_walk :
    ∀ n : Nat, 2 + n < 2 ^ 128 →
      ipRangeToCIDRs.Position ⟨1, Z.z6 ""⟩ ⟨1, Z.z6 "eth0"⟩ ⟨2 + n, Z.z6 ""⟩ := by
  intro n
  induction n with
  | zero =>
    intro _
    have h0 : findLargestPrefix ⟨1, Z.z6 ""⟩ ⟨1, Z.z6 "eth0"⟩
        = (⟨⟨1, Z.z6 ""⟩, 128⟩, ⟨1, Z.z6 ""⟩) := by decide
    have hstep := @ipRangeToCIDRs.Position.next ⟨1, Z.z6 ""⟩ ⟨1, Z.z6 "eth0"⟩
      ⟨1, Z.z6 ""⟩ ipRangeToCIDRs.Position.first
      (compare_zone_ne _ 1 "" "eth0" (by rw [h0]; exact Or.inr rfl) (by decide))
    rw [h0] at hstep
    simpa [Addr.Next] using hstep
  | succ k ih =>
    intro hk
    have hpos := ih (by omega)
    have hf := findLargestPrefix_past (2 + k) 1 "eth0" (by omega) (by omega)
    have hstep := @ipRangeToCIDRs.Position.next ⟨1, Z.z6 ""⟩ ⟨1, Z.z6 "eth0"⟩
      ⟨2 + k, Z.z6 ""⟩ hpos
      (compare_zone_ne _ 1 "" "eth0" (by rw [hf]; exact Or.inr rfl) (by decide))
    rw [hf, next_zoned (2 + k) "" (by omega)] at hstep
    have he : 2 + (k + 1) = 2 + k + 1 := by omega
    rw [he]
    exact hstep

/-- C21 (failing input). The result of `ipRangeToCIDRs` depends on the zone of its
endpoints.  For `fe80::%eth0` to `fe80::1%eth0`, two valid IPv6 addresses with the same
zone and `start ≤ end`, it returns the two host prefixes `fe80::/128` and
`fe80::1/128`, while for `fe80::` to `fe80::1` without zone it returns the single
prefix `fe80::/127`; the two lists differ.  For `fe80::%eth0` to
`fe80::ffff:ffff:ffff:ffff%eth0` it returns `2^64` prefixes, and for `::1` to
`::1%eth0`, which passes the four checks, it does not return for any number of loop
iterations. -/
theorem ipRangeToCIDRs_zone_dependent :
    (Addr.mk 0xfe800000000000000000000000000000 (Z.z6 "eth0")).IsValid = true ∧
    (Addr.mk 0xfe800000000000000000000000000001 (Z.z6 "eth0")).IsValid = true ∧
    (Addr.mk 0xfe800000000000000000000000000000 (Z.z6 "eth0")).Is6 = true ∧
    (Addr.mk 0xfe800000000000000000000000000001 (Z.z6 "eth0")).Is6 = true ∧
    (Addr.mk 0xfe800000000000000000000000000000 (Z.z6 "eth0")).Compare
      ⟨0xfe800000000000000000000000000001, Z.z6 "eth0"⟩ ≤ 0 ∧
    Returns ⟨0xfe800000000000000000000000000000, Z.z6 "eth0"⟩
      ⟨0xfe800000000000000000000000000001, Z.z6 "eth0"⟩
      ([⟨⟨0xfe800000000000000000000000000000, Z.z6 ""⟩, 128⟩,
        ⟨⟨0xfe800000000000000000000000000001, Z.z6 ""⟩, 128⟩], none) ∧
    Returns (Addr.mk 0xfe800000000000000000000000000000 (Z.z6 "eth0")).withoutZone
      (Addr.mk 0xfe800000000000000000000000000001 (Z.z6 "eth0")).withoutZone
      ([⟨⟨0xfe800000000000000000000000000000, Z.z6 ""⟩, 127⟩], none) ∧
    ([⟨⟨0xfe800000000000000000000000000000, Z.z6 ""⟩, 128⟩,
        ⟨⟨0xfe800000000000000000000000000001, Z.z6 ""⟩, 128⟩] : List Prefix)
      ≠ [⟨⟨0xfe800000000000000000000000000000, Z.z6 ""⟩, 127⟩] ∧
    (∃ prefixes, Returns ⟨0xfe800000000000000000000000000000, Z.z6 "eth0"⟩
        ⟨0xfe80000000000000ffffffffffffffff, Z.z6 "eth0"⟩ (prefixes, none) ∧
      prefixes.length = 2 ^ 64) ∧
    (Addr.mk 1 (Z.z6 "")).Compare ⟨1, Z.z6 "eth0"⟩ ≤ 0 ∧
    ∀ fuel, ipRangeToCIDRs fuel ⟨1, Z.z6 ""⟩ ⟨1, Z.z6 "eth0"⟩ = none := by
  refine ⟨rfl, rfl, rfl, rfl, by decide, ?_, ?_, by decide, ?_, ?_, ?_⟩
  · exact returns_of_eval _ _ _ _
      (ipRangeToCIDRs_zoned_eval 0xfe800000000000000000000000000000
        0xfe800000000000000000000000000001 "eth0" (by decide) (by decide) (by decide))
  · exact ipRangeToCIDRs_pair6 0xfe800000000000000000000000000000 (by decide) (by decide)
  · refine ⟨_, returns_of_eval _ _ _ _
      (ipRangeToCIDRs_zoned_eval 0xfe800000000000000000000000000000
        0xfe80000000000000ffffffffffffffff "eth0" (by decide) (by decide) (by decide)), ?_⟩
    rw [List.length_map, List.length_range']
    decide
  · simpa using compare_stripped_le 1 "eth0"
  · intro fuel
    rw [ipRangeToCIDRs_zone_mismatch 1 1 "" "eth0" (by decide) fuel,
      if_neg (by simpa using compare_stripped_le 1 "eth0")]

/-- C2 (failing input). On `fe80::%eth0` to `fe80::1%eth0`, two valid IPv6 addresses with
`start ≤ end`, `ipRangeToCIDRs` returns the two prefixes `fe80::/128` and
`fe80::1/128`.  The one-element list `fe80::/127` is a list of well-formed IPv6
prefixes whose span is exactly the addresses with value `fe80::` to `fe80::1`, so
the returned list is longer than a list that covers the range. -/
theorem ipRangeToCIDRs_zoned_not_minimal :
    (Addr.mk 0xfe800000000000000000000000000000 (Z.z6 "eth0")).IsValid = true ∧
    (Addr.mk 0xfe800000000000000000000000000001 (Z.z6 "eth0")).IsValid = true ∧
    (Addr.mk 0xfe800000000000000000000000000000 (Z.z6 "eth0")).Is4
      = (Addr.mk 0xfe800000000000000000000000000001 (Z.z6 "eth0")).Is4 ∧
    (Addr.mk 0xfe800000000000000000000000000000 (Z.z6 "eth0")).Compare
      ⟨0xfe800000000000000000000000000001, Z.z6 "eth0"⟩ ≤ 0 ∧
    Returns ⟨0xfe800000000000000000000000000000, Z.z6 "eth0"⟩
      ⟨0xfe800000000000000000000000000001, Z.z6 "eth0"⟩
      ([⟨⟨0xfe800000000000000000000000000000, Z.z6 ""⟩, 128⟩,
        ⟨⟨0xfe800000000000000000000000000001, Z.z6 ""⟩, 128⟩], none) ∧
    (∀ q ∈ [Prefix.mk ⟨0xfe800000000000000000000000000000, Z.z6 ""⟩ 127], q.WellFormed) ∧
    (∀ v : Nat,
      (∃ q ∈ [Prefix.mk ⟨0xfe800000000000000000000000000000, Z.z6 ""⟩ 127],
        q.Spans ⟨v, Z.z6 ""⟩) ↔
      (0xfe800000000000000000000000000000 ≤ v ∧ v ≤ 0xfe800000000000000000000000000001)) ∧
    ¬ (([⟨⟨0xfe800000000000000000000000000000, Z.z6 ""⟩, 128⟩,
        ⟨⟨0xfe800000000000000000000000000001, Z.z6 ""⟩, 128⟩] : List Prefix).length
      ≤ [Prefix.mk ⟨0xfe800000000000000000000000000000, Z.z6 ""⟩ 127].length) := by
  refine ⟨rfl, rfl, rfl, by decide, ?_, by decide, ?_, by decide⟩
  · exact returns_of_eval _ _ _ _
      (ipRangeToCIDRs_zoned_eval 0xfe800000000000000000000000000000
        0xfe800000000000000000000000000001 "eth0" (by decide) (by decide) (by decide))
  · intro v
    simp only [List.mem_singleton, exists_eq_left, Prefix.Spans, Addr.BitLen, true_and]
    constructor
    · rintro ⟨h1, h2⟩
      exact ⟨h1, by simpa using h2⟩
    · rintro ⟨h1, h2⟩
      exact ⟨h1, by simpa using h2⟩

/-- C8 (failing input). The address `fe80::%eth0` is valid and its low bit is zero, so
`fe80::%eth0` to `fe80::1%eth0` is exactly the block of `h = 1` host bits; the claim
gives the one-element list `fe80::/127`.  `ipRangeToCIDRs` returns the two host
prefixes `fe80::/128` and `fe80::1/128` and does not return the single block. -/
theorem ipRangeToCIDRs_zoned_block_split :
    (Addr.mk 0xfe800000000000000000000000000000 (Z.z6 "eth0")).IsValid = true ∧
    (Addr.mk 0xfe800000000000000000000000000000 (Z.z6 "eth0")).InRange ∧
    1 ≤ (Addr.mk 0xfe800000000000000000000000000000 (Z.z6 "eth0")).BitLen ∧
    (Addr.mk 0xfe800000000000000000000000000000 (Z.z6 "eth0")).addr % 2 ^ 1 = 0 ∧
    PrefixFrom ⟨0xfe800000000000000000000000000000, Z.z6 "eth0"⟩ (((128 - 1 : Nat) : Int))
      = ⟨⟨0xfe800000000000000000000000000000, Z.z6 ""⟩, 127⟩ ∧
    Returns ⟨0xfe800000000000000000000000000000, Z.z6 "eth0"⟩
      ⟨0xfe800000000000000000000000000000 + 2 ^ 1 - 1, Z.z6 "eth0"⟩
      ([⟨⟨0xfe800000000000000000000000000000, Z.z6 ""⟩, 128⟩,
        ⟨⟨0xfe800000000000000000000000000001, Z.z6 ""⟩, 128⟩], none) ∧
    ¬ Returns ⟨0xfe800000000000000000000000000000, Z.z6 "eth0"⟩
      ⟨0xfe800000000000000000000000000000 + 2 ^ 1 - 1, Z.z6 "eth0"⟩
      ([PrefixFrom ⟨0xfe800000000000000000000000000000, Z.z6 "eth0"⟩
        (((128 - 1 : Nat) : Int))], none) := by
  have hret : Returns ⟨0xfe800000000000000000000000000000, Z.z6 "eth0"⟩
      ⟨0xfe800000000000000000000000000000 + 2 ^ 1 - 1, Z.z6 "eth0"⟩
      ([⟨⟨0xfe800000000000000000000000000000, Z.z6 ""⟩, 128⟩,
        ⟨⟨0xfe800000000000000000000000000001, Z.z6 ""⟩, 128⟩], none) :=
    returns_of_eval _ _ _ _
      (ipRangeToCIDRs_zoned_eval 0xfe800000000000000000000000000000
        (0xfe800000000000000000000000000000 + 2 ^ 1 - 1) "eth0" (by decide) (by decide)
        (by decide))
  refine ⟨rfl, by decide, by decide, by decide, by decide, hret, ?_⟩
  intro hone
  have := returns_unique _ _ _ _ hret hone
  revert this
  decide

/-- C12 (failing input). On `fe80::%eth0` to `fe80::ff%eth0`, two valid IPv6 addresses
with `start ≤ end`, `findLargestPrefix` returns `fe80::/128`.  For `m = 120`, `start`
masked to 120 bits is the address `fe80::`, the value of `start`, and the last
address of `fe80::/120` is `fe80::ff`, not greater than `end`; yet the returned
length 128 is not at most 120. -/
theorem findLargestPrefix_zoned_not_maximal :
    (Addr.mk 0xfe800000000000000000000000000000 (Z.z6 "eth0")).IsValid = true ∧
    (Addr.mk 0xfe8000000000000000000000000000ff (Z.z6 "eth0")).IsValid = true ∧
    (Addr.mk 0xfe800000000000000000000000000000 (Z.z6 "eth0")).Is4
      = (Addr.mk 0xfe8000000000000000000000000000ff (Z.z6 "eth0")).Is4 ∧
    (Addr.mk 0xfe800000000000000000000000000000 (Z.z6 "eth0")).Compare
      ⟨0xfe8000000000000000000000000000ff, Z.z6 "eth0"⟩ ≤ 0 ∧
    findLargestPrefix ⟨0xfe800000000000000000000000000000, Z.z6 "eth0"⟩
        ⟨0xfe8000000000000000000000000000ff, Z.z6 "eth0"⟩
      = (⟨⟨0xfe800000000000000000000000000000, Z.z6 ""⟩, 128⟩,
          ⟨0xfe800000000000000000000000000000, Z.z6 "eth0"⟩) ∧
    (120 : Nat) ≤ (Addr.mk 0xfe800000000000000000000000000000 (Z.z6 "eth0")).BitLen ∧
    (PrefixFrom ⟨0xfe800000000000000000000000000000, Z.z6 "eth0"⟩ ((120 : Nat) : Int)).Masked
      = ⟨(Addr.mk 0xfe800000000000000000000000000000 (Z.z6 "eth0")).withoutZone, 120⟩ ∧
    getLastAddr
        (PrefixFrom ⟨0xfe800000000000000000000000000000, Z.z6 "eth0"⟩ ((120 : Nat) : Int)).Masked
      = ⟨0xfe8000000000000000000000000000ff, Z.z6 ""⟩ ∧
    (getLastAddr
        (PrefixFrom ⟨0xfe800000000000000000000000000000, Z.z6 "eth0"⟩
          ((120 : Nat) : Int)).Masked).Compare
      ⟨0xfe8000000000000000000000000000ff, Z.z6 "eth0"⟩ ≤ 0 ∧
    ¬ ((findLargestPrefix ⟨0xfe800000000000000000000000000000, Z.z6 "eth0"⟩
        ⟨0xfe8000000000000000000000000000ff, Z.z6 "eth0"⟩).1.Bits ≤ ((120 : Nat) : Int)) := by
  have hf := findLargestPrefix_zoned 0xfe800000000000000000000000000000 "eth0" (by decide)
    ⟨0xfe8000000000000000000000000000ff, Z.z6 "eth0"⟩
  have hp : PrefixFrom ⟨0xfe800000000000000000000000000000, Z.z6 "eth0"⟩ ((128 : Nat) : Int)
      = ⟨⟨0xfe800000000000000000000000000000, Z.z6 ""⟩, 128⟩ := by decide
  rw [hp] at hf
  have hlast : getLastAddr
      (PrefixFrom ⟨0xfe800000000000000000000000000000, Z.z6 "eth0"⟩ ((120 : Nat) : Int)).Masked
      = ⟨0xfe8000000000000000000000000000ff, Z.z6 ""⟩ := by decide
  refine ⟨rfl, rfl, rfl, by decide, hf, by decide, by decide, hlast, ?_, ?_⟩
  · rw [hlast]
    exact compare_stripped_le _ "eth0"
  · rw [hf]
    decide

/-- C13 (failing input). On `fe80::%eth0` to `fe80::ff%eth0`, two valid IPv6 addresses
with `start ≤ end`, `ipRangeToCIDRs` returns 256 prefixes, more than
`2 * 128 - 1 = 255`. -/
theorem ipRangeToCIDRs_zoned_length_exceeds :
    (Addr.mk 0xfe800000000000000000000000000000 (Z.z6 "eth0")).IsValid = true ∧
    (Addr.mk 0xfe8000000000000000000000000000ff (Z.z6 "eth0")).IsValid = true ∧
    (Addr.mk 0xfe800000000000000000000000000000 (Z.z6 "eth0")).Is6 = true ∧
    (Addr.mk 0xfe8000000000000000000000000000ff (Z.z6 "eth0")).Is6 = true ∧
    (Addr.mk 0xfe800000000000000000000000000000 (Z.z6 "eth0")).Compare
      ⟨0xfe8000000000000000000000000000ff, Z.z6 "eth0"⟩ ≤ 0 ∧
    ∃ prefixes, Returns ⟨0xfe800000000000000000000000000000, Z.z6 "eth0"⟩
        ⟨0xfe8000000000000000000000000000ff, Z.z6 "eth0"⟩ (prefixes, none) ∧
      prefixes.length = 256 ∧
      ¬ (prefixes.length
        ≤ 2 * (Addr.mk 0xfe800000000000000000000000000000 (Z.z6 "eth0")).BitLen - 1) ∧
      ¬ (prefixes.length ≤ 255) := by
  refine ⟨rfl, rfl, rfl, rfl, by decide, _, returns_of_eval _ _ _ _
    (ipRangeToCIDRs_zoned_eval 0xfe800000000000000000000000000000
      0xfe8000000000000000000000000000ff "eth0" (by decide) (by decide) (by decide)), ?_⟩
  rw [List.length_map, List.length_range']
  decide

set_option maxRecDepth 100000 in
/-- C19 (failing input). On `fe80::%eth0` to `fe80::ff%eth0`, two valid IPv6 addresses
with `start ≤ end`, `findLargestPrefix` returns a prefix of length 128, that is `0`
host bits, while `min(tz(start), floor(log2(end - start + 1)))` is
`min(119, 8) = 8`. -/
theorem findLargestPrefix_zoned_hostBits :
    (Addr.mk 0xfe800000000000000000000000000000 (Z.z6 "eth0")).IsValid = true ∧
    (Addr.mk 0xfe8000000000000000000000000000ff (Z.z6 "eth0")).IsValid = true ∧
    (Addr.mk 0xfe800000000000000000000000000000 (Z.z6 "eth0")).Is4
      = (Addr.mk 0xfe8000000000000000000000000000ff (Z.z6 "eth0")).Is4 ∧
    (Addr.mk 0xfe800000000000000000000000000000 (Z.z6 "eth0")).Compare
      ⟨0xfe8000000000000000000000000000ff, Z.z6 "eth0"⟩ ≤ 0 ∧
    ((Addr.mk 0xfe800000000000000000000000000000 (Z.z6 "eth0")).BitLen : Int)
        - (findLargestPrefix ⟨0xfe800000000000000000000000000000, Z.z6 "eth0"⟩
            ⟨0xfe8000000000000000000000000000ff, Z.z6 "eth0"⟩).1.Bits = 0 ∧
    trailingZeroBits (Addr.mk 0xfe800000000000000000000000000000 (Z.z6 "eth0")).BitLen
      0xfe800000000000000000000000000000 = 119 ∧
    floorLog2 (0xfe8000000000000000000000000000ff - 0xfe800000000000000000000000000000 + 1)
      = 8 ∧
    ((Addr.mk 0xfe800000000000000000000000000000 (Z.z6 "eth0")).BitLen : Int)
        - (findLargestPrefix ⟨0xfe800000000000000000000000000000, Z.z6 "eth0"⟩
            ⟨0xfe8000000000000000000000000000ff, Z.z6 "eth0"⟩).1.Bits
      ≠ ((min (trailingZeroBits
            (Addr.mk 0xfe800000000000000000000000000000 (Z.z6 "eth0")).BitLen
            (Addr.mk 0xfe800000000000000000000000000000 (Z.z6 "eth0")).addr)
          (floorLog2 ((Addr.mk 0xfe8000000000000000000000000000ff (Z.z6 "eth0")).addr
            - (Addr.mk 0xfe800000000000000000000000000000 (Z.z6 "eth0")).addr + 1)) : Nat)
          : Int) := by
  have hf := findLargestPrefix_zoned 0xfe800000000000000000000000000000 "eth0" (by decide)
    ⟨0xfe8000000000000000000000000000ff, Z.z6 "eth0"⟩
  have hp : PrefixFrom ⟨0xfe800000000000000000000000000000, Z.z6 "eth0"⟩ ((128 : Nat) : Int)
      = ⟨⟨0xfe800000000000000000000000000000, Z.z6 ""⟩, 128⟩ := by decide
  rw [hp] at hf
  rw [hf]
  refine ⟨rfl, rfl, rfl, by decide, by decide, by decide, by decide, by decide⟩

/-- C20 (failing input). On `fe80::%eth0` to `fe80::3%eth0`, two valid IPv6 addresses
with `start ≤ end`, `ipRangeToCIDRs` returns four prefixes, all of length 128: the
length 128 occurs four times. -/
theorem ipRangeToCIDRs_zoned_lengths_repeat :
    (Addr.mk 0xfe800000000000000000000000000000 (Z.z6 "eth0")).IsValid = true ∧
    (Addr.mk 0xfe800000000000000000000000000003 (Z.z6 "eth0")).IsValid = true ∧
    (Addr.mk 0xfe800000000000000000000000000000 (Z.z6 "eth0")).Is4
      = (Addr.mk 0xfe800000000000000000000000000003 (Z.z6 "eth0")).Is4 ∧
    (Addr.mk 0xfe800000000000000000000000000000 (Z.z6 "eth0")).Compare
      ⟨0xfe800000000000000000000000000003, Z.z6 "eth0"⟩ ≤ 0 ∧
    Returns ⟨0xfe800000000000000000000000000000, Z.z6 "eth0"⟩
      ⟨0xfe800000000000000000000000000003, Z.z6 "eth0"⟩
      ([⟨⟨0xfe800000000000000000000000000000, Z.z6 ""⟩, 128⟩,
        ⟨⟨0xfe800000000000000000000000000001, Z.z6 ""⟩, 128⟩,
        ⟨⟨0xfe800000000000000000000000000002, Z.z6 ""⟩, 128⟩,
        ⟨⟨0xfe800000000000000000000000000003, Z.z6 ""⟩, 128⟩], none) ∧
    (([⟨⟨0xfe800000000000000000000000000000, Z.z6 ""⟩, 128⟩,
        ⟨⟨0xfe800000000000000000000000000001, Z.z6 ""⟩, 128⟩,
        ⟨⟨0xfe800000000000000000000000000002, Z.z6 ""⟩, 128⟩,
        ⟨⟨0xfe800000000000000000000000000003, Z.z6 ""⟩, 128⟩] : List Prefix).map
      Prefix.Bits).count 128 = 4 ∧
    ¬ ((([⟨⟨0xfe800000000000000000000000000000, Z.z6 ""⟩, 128⟩,
        ⟨⟨0xfe800000000000000000000000000001, Z.z6 ""⟩, 128⟩,
        ⟨⟨0xfe800000000000000000000000000002, Z.z6 ""⟩, 128⟩,
        ⟨⟨0xfe800000000000000000000000000003, Z.z6 ""⟩, 128⟩] : List Prefix).map
      Prefix.Bits).count 128 ≤ 2) := by
  refine ⟨rfl, rfl, rfl, by decide, ?_, by decide, by decide⟩
  exact returns_of_eval _ _ _ _
    (ipRangeToCIDRs_zoned_eval 0xfe800000000000000000000000000000
      0xfe800000000000000000000000000003 "eth0" (by decide) (by decide) (by decide))

/-- C5 (failing input). The addresses `::1` and `::1%eth0` are valid, of the same
family, and `start.Compare(end) > 0` is false, so none of the four error conditions
holds; yet `ipRangeToCIDRs` returns neither a prefix list nor an error: the call has
no result for any number of loop iterations. -/
theorem ipRangeToCIDRs_zone_mismatch_no_result :
    (Addr.mk 1 (Z.z6 "")).IsValid = true ∧ (Addr.mk 1 (Z.z6 "eth0")).IsValid = true ∧
    (Addr.mk 1 (Z.z6 "")).InRange ∧ (Addr.mk 1 (Z.z6 "eth0")).InRange ∧
    ¬ ((Addr.mk 1 (Z.z6 "")).IsValid = false ∨ (Addr.mk 1 (Z.z6 "eth0")).IsValid = false ∨
      (Addr.mk 1 (Z.z6 "")).Is4 ≠ (Addr.mk 1 (Z.z6 "eth0")).Is4 ∨
      (Addr.mk 1 (Z.z6 "")).Compare ⟨1, Z.z6 "eth0"⟩ > 0) ∧
    (∀ fuel, ipRangeToCIDRs fuel ⟨1, Z.z6 ""⟩ ⟨1, Z.z6 "eth0"⟩ = none) ∧
    ¬ (∃ r, Returns ⟨1, Z.z6 ""⟩ ⟨1, Z.z6 "eth0"⟩ r) := by
  have hle := compare_stripped_le 1 "eth0"
  have hnone : ∀ fuel, ipRangeToCIDRs fuel ⟨1, Z.z6 ""⟩ ⟨1, Z.z6 "eth0"⟩ = none := by
    intro fuel
    rw [ipRangeToCIDRs_zone_mismatch 1 1 "" "eth0" (by decide) fuel,
      if_neg (by simpa using hle)]
  refine ⟨rfl, rfl, by decide, by decide, ?_, hnone, not_returns_of_none _ _ hnone⟩
  rintro (h | h | h | h)
  · exact absurd h (by decide)
  · exact absurd h (by decide)
  · exact absurd h (by decide)
  · omega

/-- C14 (failing input). The addresses `::1` and `::1%eth0` are valid, of the same
family, and pass the `start ≤ end` check.  In the first iteration the emitted prefix
is `::1/128`, whose last address `::1` has the value of `end`, but
`lastAddr.Compare(end) == 0` is false and the loop goes on; it does not reach its
`break` from any position it takes, for any number of iterations. -/
theorem ipRangeToCIDRs_zone_mismatch_no_exit :
    (Addr.mk 1 (Z.z6 "")).IsValid = true ∧ (Addr.mk 1 (Z.z6 "eth0")).IsValid = true ∧
    (Addr.mk 1 (Z.z6 "")).Is4 = (Addr.mk 1 (Z.z6 "eth0")).Is4 ∧
    ¬ ((Addr.mk 1 (Z.z6 "")).Compare ⟨1, Z.z6 "eth0"⟩ > 0) ∧
    findLargestPrefix ⟨1, Z.z6 ""⟩ ⟨1, Z.z6 "eth0"⟩ = (⟨⟨1, Z.z6 ""⟩, 128⟩, ⟨1, Z.z6 ""⟩) ∧
    getLastAddr (findLargestPrefix ⟨1, Z.z6 ""⟩ ⟨1, Z.z6 "eth0"⟩).1 = ⟨1, Z.z6 ""⟩ ∧
    (getLastAddr (findLargestPrefix ⟨1, Z.z6 ""⟩ ⟨1, Z.z6 "eth0"⟩).1).addr
      = (Addr.mk 1 (Z.z6 "eth0")).addr ∧
    (findLargestPrefix ⟨1, Z.z6 ""⟩ ⟨1, Z.z6 "eth0"⟩).2.Compare ⟨1, Z.z6 "eth0"⟩ ≠ 0 ∧
    (∀ curr, ipRangeToCIDRs.Position ⟨1, Z.z6 ""⟩ ⟨1, Z.z6 "eth0"⟩ curr →
      (findLargestPrefix curr ⟨1, Z.z6 "eth0"⟩).2.Compare ⟨1, Z.z6 "eth0"⟩ ≠ 0) ∧
    (∀ fuel acc, ipRangeToCIDRs.loop ⟨1, Z.z6 "eth0"⟩ fuel ⟨1, Z.z6 ""⟩ acc = none) ∧
    (∀ fuel, ipRangeToCIDRs fuel ⟨1, Z.z6 ""⟩ ⟨1, Z.z6 "eth0"⟩ = none) := by
  have hle := compare_stripped_le 1 "eth0"
  have h0 : findLargestPrefix ⟨1, Z.z6 ""⟩ ⟨1, Z.z6 "eth0"⟩
      = (⟨⟨1, Z.z6 ""⟩, 128⟩, ⟨1, Z.z6 ""⟩) := by decide
  have htag : ∀ curr, ipRangeToCIDRs.Position ⟨1, Z.z6 ""⟩ ⟨1, Z.z6 "eth0"⟩ curr →
      (curr.z = Z.z0 ∨ curr.z = Z.z6 "") := by
    intro curr hpos
    induction hpos with
    | first => exact Or.inr rfl
    | next c _ _ ih => exact next_tag _ "" (findLargestPrefix_tag c _ "" ih)
  refine ⟨rfl, rfl, rfl, by simpa using hle, h0, ?_, ?_, ?_, ?_, ?_, ?_⟩
  · rw [h0]
    decide
  · rw [h0]
    decide
  · exact compare_zone_ne _ 1 "" "eth0" (by rw [h0]; exact Or.inr rfl) (by decide)
  · intro curr hpos
    exact compare_zone_ne _ 1 "" "eth0" (findLargestPrefix_tag curr _ "" (htag curr hpos))
      (by decide)
  · intro fuel acc
    exact ipRangeToCIDRs_loop_zone_mismatch 1 "" "eth0" (by decide) fuel _ acc (Or.inr rfl)
  · intro fuel
    rw [ipRangeToCIDRs_zone_mismatch 1 1 "" "eth0" (by decide) fuel,
      if_neg (by simpa using hle)]

/-- C16 (failing input). The addresses `::1` and `::1%eth0` are valid, of the same
family, and pass the `start ≤ end` check.  After the first iteration the loop is at
the position `::2`, which is greater than `end`; it goes on to the position
`ffff:ffff:ffff:ffff:ffff:ffff:ffff:ffff`, where the last address found is the maximum
address of the family, the loop continues, and `Next` wraps to the zero `Addr`, the
next position. -/
theorem ipRangeToCIDRs_zone_mismatch_past_end :
    (Addr.mk 1 (Z.z6 "")).IsValid = true ∧ (Addr.mk 1 (Z.z6 "eth0")).IsValid = true ∧
    (Addr.mk 1 (Z.z6 "")).Is4 = (Addr.mk 1 (Z.z6 "eth0")).Is4 ∧
    ¬ ((Addr.mk 1 (Z.z6 "")).Compare ⟨1, Z.z6 "eth0"⟩ > 0) ∧
    (∀ fuel acc, ipRangeToCIDRs.loop ⟨1, Z.z6 "eth0"⟩ (fuel + 1) ⟨1, Z.z6 ""⟩ acc
      = ipRangeToCIDRs.loop ⟨1, Z.z6 "eth0"⟩ fuel ⟨2, Z.z6 ""⟩
          (acc ++ [⟨⟨1, Z.z6 ""⟩, 128⟩])) ∧
    ipRangeToCIDRs.Position ⟨1, Z.z6 ""⟩ ⟨1, Z.z6 "eth0"⟩ ⟨2, Z.z6 ""⟩ ∧
    (Addr.mk 2 (Z.z6 "")).Compare ⟨1, Z.z6 "eth0"⟩ > 0 ∧
    ipRangeToCIDRs.Position ⟨1, Z.z6 ""⟩ ⟨1, Z.z6 "eth0"⟩ ⟨2 ^ 128 - 1, Z.z6 ""⟩ ∧
    (findLargestPrefix ⟨2 ^ 128 - 1, Z.z6 ""⟩ ⟨1, Z.z6 "eth0"⟩).2 = ⟨2 ^ 128 - 1, Z.z6 ""⟩ ∧
    (findLargestPrefix ⟨2 ^ 128 - 1, Z.z6 ""⟩ ⟨1, Z.z6 "eth0"⟩).2.Compare ⟨1, Z.z6 "eth0"⟩
      ≠ 0 ∧
    (findLargestPrefix ⟨2 ^ 128 - 1, Z.z6 ""⟩ ⟨1, Z.z6 "eth0"⟩).2.Next = Addr.zero ∧
    ipRangeToCIDRs.Position ⟨1, Z.z6 ""⟩ ⟨1, Z.z6 "eth0"⟩ Addr.zero := by
  have hle := compare_stripped_le 1 "eth0"
  have h0 : findLargestPrefix ⟨1, Z.z6 ""⟩ ⟨1, Z.z6 "eth0"⟩
      = (⟨⟨1, Z.z6 ""⟩, 128⟩, ⟨1, Z.z6 ""⟩) := by decide
  have hne0 : Addr.Compare ⟨1, Z.z6 ""⟩ ⟨1, Z.z6 "eth0"⟩ ≠ 0 :=
    compare_zone_ne _ 1 "" "eth0" (Or.inr rfl) (by decide)
  have hmax := findLargestPrefix_past (2 ^ 128 - 1) 1 "eth0" (by decide) (by decide)
  have hnemax : (findLargestPrefix ⟨2 ^ 128 - 1, Z.z6 ""⟩ ⟨1, Z.z6 "eth0"⟩).2.Compare
      ⟨1, Z.z6 "eth0"⟩ ≠ 0 :=
    compare_zone_ne _ 1 "" "eth0" (by rw [hmax]; exact Or.inr rfl) (by decide)
  have hposmax : ipRangeToCIDRs.Position ⟨1, Z.z6 ""⟩ ⟨1, Z.z6 "eth0"⟩
      ⟨2 ^ 128 - 1, Z.z6 ""⟩ := by
    have := position_mismatch_walk (2 ^ 128 - 3) (by decide)
    have he : 2 + (2 ^ 128 - 3) = 2 ^ 128 - 1 := by decide
    rw [he] at this
    exact this
  have hnext : (findLargestPrefix ⟨2 ^ 128 - 1, Z.z6 ""⟩ ⟨1, Z.z6 "eth0"⟩).2.Next
      = Addr.zero := by
    rw [hmax]
    decide
  refine ⟨rfl, rfl, rfl, by simpa using hle, ?_, ?_, ?_, hposmax, ?_, hnemax, hnext, ?_⟩
  · intro fuel acc
    rw [ipRangeToCIDRs.loop, h0]
    simp only
    rw [if_neg hne0]
    rfl
  · simpa using position_mismatch_walk 0 (by decide)
  · exact compare_gt_of_addr_gt 2 1 "" "eth0" (by decide)
  · rw [hmax]
  · have := @ipRangeToCIDRs.Position.next ⟨1, Z.z6 ""⟩ ⟨1, Z.z6 "eth0"⟩
      ⟨2 ^ 128 - 1, Z.z6 ""⟩ hposmax hnemax
    rw [hnext] at this
    exact this

end asinfo

/-! ## The policy values of the serve command -/

namespace serve

open netip

/-- C15 (failing input). The policy value `65001!10.0.0.1`, written as the usage text of
the `--policy` flag documents, is split on `,` into a single part and rejected with
the invalid-format error, whatever `netip.ParseAddr` accepts; so is the three-field
form, and the policy loop exits with that error.  The same fields separated by `,`
are accepted. -/
theorem parsePolicy_documented_format_rejected (ParseAddr : String → Option Addr) :
    SplitN "65001!10.0.0.1" ',' 3 = ["65001!10.0.0.1"] ∧
    parsePolicy ParseAddr "65001!10.0.0.1"
      = Except.error (PolicyError.invalidPolicyFormat "65001!10.0.0.1") ∧
    parsePolicy ParseAddr "65001!10.0.0.1!2001:db8::1"
      = Except.error (PolicyError.invalidPolicyFormat "65001!10.0.0.1!2001:db8::1") ∧
    parsePolicies ParseAddr ["65001!10.0.0.1"]
      = Except.error (PolicyError.invalidPolicyFormat "65001!10.0.0.1") ∧
    parsePolicy (fun s => if s = "10.0.0.1" then some (AddrFrom4 ⟨10, 0, 0, 1⟩) else none)
        "65001,10.0.0.1"
      = Except.ok ⟨65001, AddrFrom4 ⟨10, 0, 0, 1⟩, Addr.zero⟩ := by
  refine ⟨by decide, rfl, rfl, rfl, rfl⟩

/-- What the range check guarantees of an accepted policy: the ASN text parses to an
integer `asn` that is not `0` and is at most `4294967295`, and the stored ASN is
`asn` reduced modulo `2^32`, which is `asn` itself when `asn` is positive.  A negative
`asn` is not excluded. -/
theorem parsePolicy_asn (ParseAddr : String → Option Addr) (policyStr : String) (p : Policy)
    (h : parsePolicy ParseAddr policyStr = Except.ok p) :
    ∃ asn : Int, Atoi ((SplitN policyStr ',' 3).getD 0 "") = some asn ∧ asn ≠ 0 ∧
      asn ≤ 4294967295 ∧ (p.ASN : Int) = asn % 2 ^ 32 ∧ (0 < asn → (p.ASN : Int) = asn) := by
  cases hasn : Atoi ((SplitN policyStr ',' 3).getD 0 "") with
  | none =>
    simp only [parsePolicy, hasn] at h
    split_ifs at h
  | some asn =>
    have hstored : ∀ q : Policy, q.ASN = (asn % 2 ^ 32).toNat → asn ≤ 4294967295 →
        (q.ASN : Int) = asn % 2 ^ 32 ∧ (0 < asn → (q.ASN : Int) = asn) := by
      intro q hq hle
      rw [hq]
      omega
    cases h4 : ParseAddr ((SplitN policyStr ',' 3).getD 1 "") with
    | none =>
      simp only [parsePolicy, hasn, h4] at h
      split_ifs at h
    | some ip4 =>
      cases h6 : ParseAddr ((SplitN policyStr ',' 3).getD 2 "") with
      | none =>
        simp only [parsePolicy, hasn, h4, h6] at h
        split_ifs at h with h1 h2 h3 h5
        cases h
        exact ⟨asn, rfl, by omega, by omega, hstored _ rfl (by omega)⟩
      | some ip6 =>
        simp only [parsePolicy, hasn, h4, h6] at h
        split_ifs at h with h1 h2 h3 h5 h7
        · cases h
          exact ⟨asn, rfl, by omega, by omega, hstored _ rfl (by omega)⟩
        · cases h
          exact ⟨asn, rfl, by omega, by omega, hstored _ rfl (by omega)⟩

/-- C22 (failing input). The range check of the policy parser, `asn == 0 || asn >
4294967295`, lets a negative ASN through.  `strconv.Atoi` reads `-1` as the integer
`-1`; the policy `-1,10.0.0.1` is accepted and the stored `uint32` ASN is
`4294967295`, and `-4294967295,10.0.0.1` is accepted with the stored ASN `1`: neither
equals the integer that was parsed.  The policy loop returns such a policy.  The same
check rejects `0` and `4294967296` with the out-of-range error, whatever
`netip.ParseAddr` accepts. -/
theorem parsePolicy_negative_asn_accepted (ParseAddr : String → Option Addr) :
    Atoi "-1" = some (-1) ∧
    Atoi "-4294967295" = some (-4294967295) ∧
    parsePolicy (fun s => if s = "10.0.0.1" then some (AddrFrom4 ⟨10, 0, 0, 1⟩) else none)
        "-1,10.0.0.1"
      = Except.ok ⟨4294967295, AddrFrom4 ⟨10, 0, 0, 1⟩, Addr.zero⟩ ∧
    parsePolicy (fun s => if s = "10.0.0.1" then some (AddrFrom4 ⟨10, 0, 0, 1⟩) else none)
        "-4294967295,10.0.0.1"
      = Except.ok ⟨1, AddrFrom4 ⟨10, 0, 0, 1⟩, Addr.zero⟩ ∧
    parsePolicies (fun s => if s = "10.0.0.1" then some (AddrFrom4 ⟨10, 0, 0, 1⟩) else none)
        ["-1,10.0.0.1"]
      = Except.ok [⟨4294967295, AddrFrom4 ⟨10, 0, 0, 1⟩, Addr.zero⟩] ∧
    parsePolicy ParseAddr "0,10.0.0.1"
      = Except.error (PolicyError.asnOutOfRange 0 "0,10.0.0.1") ∧
    parsePolicy ParseAddr "4294967296,10.0.0.1"
      = Except.error (PolicyError.asnOutOfRange 4294967296 "4294967296,10.0.0.1") := by
  refine ⟨by decide, by decide, rfl, rfl, rfl, rfl, rfl⟩

end serve
